import Mathlib

/-!
# Verification of the storytelling document-reduction engine

Shallow embedding, in Lean, of the core algorithms of the repository:

* `src/lib/text-splitter.ts` — `splitLongText`, `splitIntoParagraphs`
  (the paragraph-aware chunker);
* `src/lib/rlm-reader.ts` — the `done()` coverage gate, the chapter-fragment
  merge (`getCollectedChapters`, `consolidateChapters`) and the control flow
  of `RLMReader.read`;
* `src/lib/deep-reader.ts` — `splitChapterIntoSegments`, the gap-fill pass and
  the sorted reassembly of `processChapterWithAgent`, and the chunk-range →
  character-offset mapping of `generateContextAndChapters`.

Strings are modelled as `List Char`; JS numbers that hold indices or sizes are
modelled as `Nat` (as `Int` where the source can produce negative values);
fractional JS comparisons (`* 0.5`, `* 0.6`, the coverage fraction) are
modelled exactly, either by integer rescaling or with `ℚ`.  Loops whose
progress is not structural are modelled with explicit fuel, `none` standing
for non-termination of the source loop; a fuel-sufficiency lemma is proved
for every case in which the source loop terminates.
-/

namespace Storytelling

/-! ## Character-level utilities -/

/-- Whitespace class used by JS `String.prototype.trim` and by the `\s` of the
blank-line splitting regex: the ASCII whitespace characters plus the Unicode
space separators (including the fullwidth space U+3000 common in Chinese
text), U+2028/U+2029 and the BOM. -/
def isWs (c : Char) : Bool :=
  c = ' ' || c = '\t' || c = '\n' || c = '\x0b' || c = '\x0c' || c = '\r' ||
  c = '\u00a0' || c = '\u1680' || ('\u2000' ≤ c && c ≤ '\u200a') ||
  c = '\u2028' || c = '\u2029' || c = '\u202f' || c = '\u205f' ||
  c = '\u3000' || c = '\ufeff'

/-- The subsequence of non-whitespace characters of a string.  Two strings
with the same `nonWs` image differ only in whitespace. -/
def nonWs (l : List Char) : List Char := l.filter (fun c => !isWs c)

/-- Model of JS `String.prototype.trim`: drop whitespace from both ends. -/
def trim (l : List Char) : List Char :=
  ((l.dropWhile isWs).reverse.dropWhile isWs).reverse

/-! ## Last-occurrence search (JS `lastIndexOf`) -/

/-- Index of the last occurrence of `c` in `l`, or `none`. -/
def lastOcc (c : Char) : List Char → Option Nat
  | [] => none
  | x :: xs =>
    match lastOcc c xs with
    | some j => some (j + 1)
    | none => if x = c then some 0 else none

/-- JS `s.lastIndexOf(c, pos)` for a one-character needle: the largest index
`≤ pos` holding `c` (the JS `-1` result is `none`). -/
def lastIdxLe (c : Char) (l : List Char) (pos : Nat) : Option Nat :=
  lastOcc c (l.take (pos + 1))

/-! ## `splitLongText` (text-splitter.ts, lines 7–31) -/

/-- The split position chosen by one iteration of `splitLongText`'s loop:
the index after the last `。` at position ≤ `maxChars` provided that position
is ≥ `maxChars * 0.5`, else the same for `.`, else the hard boundary
`maxChars`.  The JS comparison `idx < maxChars * 0.5` is the exact integer
comparison `2 * idx < maxChars`. -/
def computeSplitIndex (remaining : List Char) (maxChars : Nat) : Nat :=
  let s1 := lastIdxLe '。' remaining maxChars
  let s2 :=
    match s1 with
    | some i => if 2 * i < maxChars then lastIdxLe '.' remaining maxChars else some i
    | none => lastIdxLe '.' remaining maxChars
  match s2 with
  | some i => if 2 * i < maxChars then maxChars else i + 1
  | none => maxChars

/-- Fuel-indexed model of the `while` loop of `splitLongText`.  `none` models
a run of the source loop that does not terminate within `fuel` iterations;
for `maxChars ≥ 1` the loop always terminates (`splitLongTextF_isSome`), and
for `maxChars = 0` it can loop forever (the chosen split index is `0`, so the
remaining text never shrinks). -/
def splitLongTextF (maxChars : Nat) : Nat → List Char → Option (List (List Char))
  | 0, _ => none
  | fuel + 1, remaining =>
    if maxChars < remaining.length then
      match splitLongTextF maxChars fuel (trim (remaining.drop (computeSplitIndex remaining maxChars))) with
      | some rest => some (trim (remaining.take (computeSplitIndex remaining maxChars)) :: rest)
      | none => none
    else if remaining.isEmpty then some [] else some [remaining]

/-- Model of `splitLongText(text, maxChars)`. -/
def splitLongText (text : List Char) (maxChars : Nat) : Option (List (List Char)) :=
  splitLongTextF maxChars (text.length + 1) text

/-! ## Blank-line paragraph splitting (`content.split(/\n\s*\n/)`) -/

/-- Match of the tail `\s*\n` of one separator of the splitting regex against
a prefix of `cs` (greedy with backtracking): the whitespace run at the head of
`cs` is cut after its last newline.  Returns the consumed separator part and
the rest, or `none` when no such match exists at this position. -/
def takeBlankSep (cs : List Char) : Option (List Char × List Char) :=
  match lastOcc '\n' (cs.takeWhile isWs) with
  | some i => some (cs.take (i + 1), cs.drop (i + 1))
  | none => none

/-- Fuel-indexed scan implementing `content.split(/\n\s*\n/)`: a separator is
a newline followed by the whitespace run up to (and including) its last
newline; the accumulator holds the current piece reversed.  The fuel
`cs.length + 1` always suffices since every step consumes at least one
character. -/
def splitBlankF : Nat → List Char → List Char → List (List Char)
  | 0, acc, cs => [acc.reverse ++ cs]
  | _ + 1, acc, [] => [acc.reverse]
  | fuel + 1, acc, c :: rest =>
    if c = '\n' then
      match takeBlankSep rest with
      | some (_, rest2) => acc.reverse :: splitBlankF fuel [] rest2
      | none => splitBlankF fuel (c :: acc) rest
    else splitBlankF fuel (c :: acc) rest

/-- Model of `content.split(/\n\s*\n/)`. -/
def splitBlank (cs : List Char) : List (List Char) := splitBlankF (cs.length + 1) [] cs

/-! ## `splitIntoParagraphs` (text-splitter.ts, lines 36–69) -/

/-- The greedy packing loop of `splitIntoParagraphs` together with the final
flush: consecutive trimmed paragraphs are appended (joined by a blank line)
to the running buffer while the packed length stays within `maxChars`;
otherwise the buffer is flushed, and an over-long paragraph is handed to
`splitLongText`.  `none` propagates a non-terminating `splitLongText` call. -/
def packLoop (maxChars : Nat) : List (List Char) → List Char → Option (List (List Char))
  | [], current => some (if current.isEmpty then [] else [current])
  | raw :: rest, current =>
    if current.length + (trim raw).length + 2 ≤ maxChars then
      packLoop maxChars rest
        (if current.isEmpty then trim raw else current ++ '\n' :: '\n' :: trim raw)
    else
      if maxChars < (trim raw).length then
        match splitLongText (trim raw) maxChars with
        | some chunks =>
          match packLoop maxChars rest [] with
          | some out => some ((if current.isEmpty then [] else [current]) ++ chunks ++ out)
          | none => none
        | none => none
      else
        match packLoop maxChars rest (trim raw) with
        | some out => some ((if current.isEmpty then [] else [current]) ++ out)
        | none => none

/-- Model of `splitIntoParagraphs(content, maxChars)`: split on blank lines,
drop whitespace-only paragraphs, then pack greedily. -/
def splitIntoParagraphs (content : List Char) (maxChars : Nat) : Option (List (List Char)) :=
  packLoop maxChars ((splitBlank content).filter (fun p => 0 < (trim p).length)) []

/-! ## `splitChapterIntoSegments` (deep-reader.ts, lines 250–295) -/

/-- Index of the last occurrence of the two-character needle `a, b`. -/
def lastPairOcc (a b : Char) : List Char → Option Nat
  | x :: y :: rest =>
    match lastPairOcc a b (y :: rest) with
    | some j => some (j + 1)
    | none => if x = a && y = b then some 0 else none
  | _ => none

/-- JS `s.lastIndexOf("ab", pos)`: the largest start index `≤ pos` of the
two-character needle. -/
def lastPairIdxLe (a b : Char) (l : List Char) (pos : Nat) : Option Nat :=
  lastPairOcc a b (l.take (pos + 2))

/-- Model of `Math.max` over JS `lastIndexOf` results, `none` standing for `-1`. -/
def omax : Option Nat → Option Nat → Option Nat
  | none, b => b
  | some a, none => some a
  | some a, some b => some (max a b)

/-- The `SEGMENT_SIZE` constant of deep-reader.ts. -/
def SEGMENT_SIZE : Nat := 2500

/-- The sentence-boundary fallback of the segment splitter: the largest
sentence-ending position (`。！？"`) at index ≤ `endPos0`; the split lands one
past it when it clears the positional guard `pos + SEGMENT_SIZE * 0.6`
(= `pos + 1500` exactly, both in ℝ and in JS doubles). -/
def segSentenceEnd (content : List Char) (pos endPos0 : Nat) : Nat :=
  match omax (omax (lastIdxLe '。' content endPos0) (lastIdxLe '！' content endPos0))
      (omax (lastIdxLe '？' content endPos0) (lastIdxLe '"' content endPos0)) with
  | some i => if pos + 1500 < i then i + 1 else endPos0
  | none => endPos0

/-- The end position of the segment starting at `pos`: the tentative boundary
`min (pos + SEGMENT_SIZE) length`, snapped back to the last paragraph break
(`\n\n`) past the 60% guard, else to the last sentence end past the guard. -/
def segEndPos (content : List Char) (pos : Nat) : Nat :=
  if min (pos + SEGMENT_SIZE) content.length < content.length then
    match lastPairIdxLe '\n' '\n' content (min (pos + SEGMENT_SIZE) content.length) with
    | some pb =>
      if pos + 1500 < pb then pb
      else segSentenceEnd content pos (min (pos + SEGMENT_SIZE) content.length)
    | none => segSentenceEnd content pos (min (pos + SEGMENT_SIZE) content.length)
  else min (pos + SEGMENT_SIZE) content.length

/-- A chapter segment (deep-reader.ts `Segment`). -/
structure Segment where
  id : Nat
  charStart : Nat
  charEnd : Nat
  content : List Char
  preview : List Char
deriving DecidableEq

/-- The segment built for `[pos, segEndPos)`: trimmed slice plus a 100-char
preview with `...` appended when truncated. -/
def mkSegment (content : List Char) (pos id : Nat) : Segment :=
  { id := id
    charStart := pos
    charEnd := segEndPos content pos
    content := trim ((content.drop pos).take (segEndPos content pos - pos))
    preview :=
      (trim ((content.drop pos).take (segEndPos content pos - pos))).take 100 ++
        (if 100 < (trim ((content.drop pos).take (segEndPos content pos - pos))).length then
          ['.', '.', '.'] else []) }

/-- Fuel-indexed model of the segmentation loop of `splitChapterIntoSegments`;
ids are assigned `1, 2, …` in order.  The split position strictly advances
each iteration, so fuel `content.length + 1` always suffices
(`segLoopF_isSome`). -/
def segLoopF : Nat → List Char → Nat → Nat → Option (List Segment)
  | 0, _, _, _ => none
  | fuel + 1, content, pos, id =>
    if pos < content.length then
      match segLoopF fuel content (segEndPos content pos) (id + 1) with
      | some rest => some (mkSegment content pos id :: rest)
      | none => none
    else some []

/-- Model of `splitChapterIntoSegments (chapter.content)`.  The `getD []`
default is unreachable: `segLoopF_isSome` shows the fuel suffices. -/
def splitChapterIntoSegments (content : List Char) : List Segment :=
  (segLoopF (content.length + 1) content 0 1).getD []

/-! ## Segment output store and forced gap-fill
(deep-reader.ts, `processChapterWithAgent`, lines 589–730) -/

/-- One stored rewrite result (`segmentOutputs` entry). -/
structure SegOut where
  title : List Char
  content : List Char
deriving DecidableEq

/-- The `segmentOutputs` store is a JS `Map<number, …>`: an insertion-ordered
association list with unique keys. -/
abbrev Store := List (Nat × SegOut)

/-- JS `Map.set`: overwrite in place when the key exists (keeping its
insertion position), else append. -/
def storeSet (st : Store) (k : Nat) (v : SegOut) : Store :=
  if st.any (fun p => p.1 = k) then
    st.map (fun p => if p.1 = k then (k, v) else p)
  else st ++ [(k, v)]

/-- JS `Map.has`. -/
def storeContains (st : Store) (k : Nat) : Bool := st.any (fun p => p.1 = k)

/-- Model of `preview.replace(/\.\.\.$/, '')`. -/
def stripTrailingDots (l : List Char) : List Char :=
  if l.reverse.take 3 = ['.', '.', '.'] then l.take (l.length - 3) else l

def natToChars (n : Nat) : List Char := (toString n).toList

/-- The auto-derived scene title used by the gap-fill pass:
`第${segment.id}回：${preview.slice(0,15)}` after stripping a trailing `...`
from the preview. -/
def autoSceneTitle (seg : Segment) : List Char :=
  '第' :: (natToChars seg.id ++ ('回' :: '：' :: (stripTrailingDots seg.preview).take 15))

/-- One gap-fill iteration: a successful generation (`writer` returns `some`)
marks the id processed and stores the rewrite under the auto-derived title; a
generation failure (the `catch` branch) leaves the state unchanged. -/
def gapFillStep (writer : Nat → Option (List Char)) (acc : Finset Nat × Store)
    (seg : Segment) : Finset Nat × Store :=
  match writer seg.id with
  | some content => (insert seg.id acc.1, storeSet acc.2 seg.id ⟨autoSceneTitle seg, content⟩)
  | none => acc

/-- The forced completion pass run after the dispatch loop ends for any
reason: every segment whose id is missing from the processed set is rewritten. -/
def gapFill (segments : List Segment) (writer : Nat → Option (List Char))
    (processed : Finset Nat) (store : Store) : Finset Nat × Store :=
  (segments.filter (fun s => decide (s.id ∉ processed))).foldl
    (gapFillStep writer) (processed, store)

/-! ## Deterministic reassembly (deep-reader.ts, lines 712–723) -/

/-- The `### title\n\ncontent` block for one stored segment. -/
def segBlock (e : SegOut) : List Char :=
  ('#' :: '#' :: '#' :: ' ' :: e.title) ++ ('\n' :: '\n' :: e.content)

/-- JS `Array.join('\n\n')`. -/
def joinNl2 : List (List Char) → List Char
  | [] => []
  | [b] => b
  | b :: bs => b ++ ('\n' :: '\n' :: joinNl2 bs)

/-- The sorted merge producing the final chapter text: store keys sorted
ascending, mapped to their blocks, joined by blank lines. -/
def assembleOutput (store : Store) : List Char :=
  joinNl2 (((store.map Prod.fst).insertionSort (· ≤ ·)).map
    (fun id => segBlock ((List.lookup id store).getD ⟨[], []⟩)))

/-- A completion history (the order in which `spawn_writer` results were
stored) replayed through `Map.set`. -/
def buildStore (completions : List (Nat × SegOut)) : Store :=
  completions.foldl (fun st p => storeSet st p.1 p.2) []

/-! ## The `done()` coverage gate (rlm-reader.ts, lines 748–803) -/

/-- Result of the `done()` terminal check: rejection with the displayed unread
ranges (at most 5) and the total number of unread ranges, rejection demanding
output, or acceptance. -/
inductive DoneResult where
  | rejectCoverage (displayRanges : List (Nat × Nat)) (totalRanges : Nat)
  | rejectOutput
  | accept
deriving DecidableEq

/-- The range-merging loop of the `done` handler: fold an ascending list of
indices into maximal contiguous ranges.  (The empty case is unreachable from
the rejection branch whenever the required fraction is at most 1: an
undercovered session always has an unread chunk.) -/
def mergeRangesGo (start fin : Nat) : List Nat → List (Nat × Nat)
  | [] => [(start, fin)]
  | x :: xs =>
    if x = fin + 1 then mergeRangesGo start x xs else (start, fin) :: mergeRangesGo x x xs

def mergeRanges : List Nat → List (Nat × Nat)
  | [] => []
  | x :: xs => mergeRangesGo x x xs

/-- Unread chunk indices in ascending order: `1..totalChunks` minus the read
set. -/
def unreadChunks (totalChunks : Nat) (readSet : Finset Nat) : List Nat :=
  (List.range' 1 totalChunks).filter (fun i => decide (i ∉ readSet))

/-- The `done()` gate.  `readSet` is `readChunksSet`, `output` the working
output buffer, `minCoverage` the task fraction (default `0.8`); the JS float
comparison `readCount < totalChunks * minCoverage` is modelled exactly in ℚ.
The `output.length < 100` test subsumes the JS `!this.output` emptiness
check. -/
def doneCheck (totalChunks : Nat) (readSet : Finset Nat) (output : List Char)
    (minCoverage : ℚ) : DoneResult :=
  if 10 < totalChunks ∧ (readSet.card : ℚ) < (totalChunks : ℚ) * minCoverage then
    .rejectCoverage ((mergeRanges (unreadChunks totalChunks readSet)).take 5)
      (mergeRanges (unreadChunks totalChunks readSet)).length
  else if output.length < 100 then .rejectOutput
  else .accept

/-! ## Chapter-fragment merge (rlm-reader.ts, lines 513–578) -/

/-- One collected chapter-boundary fragment.  Chunk bounds are JS numbers
(the sub-agent may emit anything), hence `Int`. -/
structure ChapterSeg where
  chunkStart : Int
  chunkEnd : Int
  title : List Char
  summary : List Char
deriving DecidableEq

def listStartsWith : List Char → List Char → Bool
  | [], _ => true
  | _ :: _, [] => false
  | a :: as, b :: bs => a == b && listStartsWith as bs

/-- JS `String.prototype.includes`. -/
def containsSub (pat : List Char) : List Char → Bool
  | [] => pat.isEmpty
  | x :: rest => listStartsWith pat (x :: rest) || containsSub pat rest

/-- One iteration of the fragment-merge fold of `getCollectedChapters`: the
incoming fragment is merged into the last accumulated one exactly when the
titles are identical and the ranges touch or overlap
(`seg.chunkStart ≤ last.chunkEnd + 1`); merging extends `chunkEnd` and
appends the summary only when it is nonempty and not already contained. -/
def mergeStep (merged : List ChapterSeg) (seg : ChapterSeg) : List ChapterSeg :=
  match merged.getLast? with
  | some last =>
    if last.title = seg.title ∧ seg.chunkStart ≤ last.chunkEnd + 1 then
      merged.dropLast ++ [{ last with
        chunkEnd := max last.chunkEnd seg.chunkEnd
        summary :=
          if seg.summary ≠ [] ∧ containsSub seg.summary last.summary = false then
            (if last.summary ≠ [] then last.summary ++ ('；' :: seg.summary) else seg.summary)
          else last.summary }]
    else merged ++ [seg]
  | none => [seg]

/-- The first consolidation pass: fold the `chunkStart`-sorted fragments
through `mergeStep`. -/
def mergeFragments (sorted : List ChapterSeg) : List ChapterSeg :=
  sorted.foldl mergeStep []

/-- Chapter width in chunks (`chunkEnd - chunkStart + 1`). -/
def chapterSpan (c : ChapterSeg) : Int := c.chunkEnd - c.chunkStart + 1

/-- The loop of `consolidateChapters`: the running chapter absorbs its
successor when the running chapter spans fewer than 10 chunks or the
successor spans fewer than 5; the wider title wins and summaries concatenate
unconditionally. -/
def consolidateGo (current : ChapterSeg) : List ChapterSeg → List ChapterSeg
  | [] => [current]
  | ch :: rest =>
    if chapterSpan current < 10 ∨ chapterSpan ch < 5 then
      consolidateGo { current with
        chunkEnd := ch.chunkEnd
        title := if chapterSpan ch ≤ chapterSpan current then current.title else ch.title
        summary := current.summary ++ ('；' :: ch.summary) } rest
    else current :: consolidateGo ch rest

/-- Model of `consolidateChapters` — the second consolidation pass over the merged
chapter list. -/
def consolidateChapters : List ChapterSeg → List ChapterSeg
  | [] => []
  | ch :: rest => consolidateGo ch rest

/-- Model of `getCollectedChapters`: sort by `chunkStart` (stable, like JS
`Array.sort`), merge adjacent same-title touching fragments, and run the
second pass only when more than 30 chapters remain. -/
def getCollectedChapters (collected : List ChapterSeg) : List ChapterSeg :=
  if collected.isEmpty then []
  else
    if 30 < (mergeFragments (collected.insertionSort
        (fun a b => a.chunkStart ≤ b.chunkStart))).length then
      consolidateChapters (mergeFragments (collected.insertionSort
        (fun a b => a.chunkStart ≤ b.chunkStart)))
    else mergeFragments (collected.insertionSort (fun a b => a.chunkStart ≤ b.chunkStart))

/-! ## Chunk-range → character-offset mapping
(deep-reader.ts, `generateContextAndChapters`, lines 329–350) -/

/-- One chapter of the RLM plan (`{chunkStart, chunkEnd, title, summary}`). -/
structure RawChapter where
  chunkStart : Int
  chunkEnd : Int
  title : List Char
  summary : List Char
deriving DecidableEq

/-- A mapped chapter. -/
structure Chapter where
  index : Nat
  title : List Char
  summary : List Char
  content : List Char
  charStart : Nat
  charEnd : Nat
deriving DecidableEq

/-- Effective end index of JS `Array.prototype.slice(start, end)` for a
possibly negative `end`. -/
def jsSliceEnd (len : Nat) (e : Int) : Nat :=
  if e < 0 then (e + (len : Int)).toNat else min e.toNat len

/-- Model of `chunks.slice(a, e)` for `a ≥ 0`. -/
def jsSliceList (l : List (List Char)) (a : Nat) (e : Int) : List (List Char) :=
  (l.drop a).take (jsSliceEnd l.length e - a)

/-- The running character offset before chunk `k` (0-based): each chunk
contributes its length plus 2 for the `\n\n` joiner. -/
def charOffset (chunks : List (List Char)) (k : Nat) : Nat :=
  ((chunks.take k).map (fun c => c.length + 2)).sum

/-- One chapter mapped from its chunk range: clamp the range, join the chunk
contents with blank lines, and derive `[charStart, charEnd)` from the running
offset. -/
def mkChapterOf (chunks : List (List Char)) (i : Nat) (ch : RawChapter) : Chapter :=
  { index := i
    title := ch.title
    summary := ch.summary
    content := joinNl2 (jsSliceList chunks ((max 1 ch.chunkStart).toNat - 1)
      (min (chunks.length : Int) ch.chunkEnd))
    charStart := charOffset chunks ((max 1 ch.chunkStart).toNat - 1)
    charEnd := charOffset chunks ((max 1 ch.chunkStart).toNat - 1) +
      (joinNl2 (jsSliceList chunks ((max 1 ch.chunkStart).toNat - 1)
        (min (chunks.length : Int) ch.chunkEnd))).length }

/-- The chapter-mapping `.map` of `generateContextAndChapters`, before the
minimum-length filter. -/
def mapChaptersRaw (chunks : List (List Char)) (plan : List RawChapter) : List Chapter :=
  plan.enum.map (fun p => mkChapterOf chunks p.1 p.2)

/-- The full mapping: chapters whose joined content is shorter than 50
characters are discarded. -/
def mapChaptersOntoChunks (chunks : List (List Char)) (plan : List RawChapter) : List Chapter :=
  (mapChaptersRaw chunks plan).filter (fun c => 50 ≤ c.content.length)

/-- The `(charStart, charEnd)` pair a raw chapter is mapped to (the
index-independent part of `mkChapterOf`). -/
def gSpan (chunks : List (List Char)) (ch : RawChapter) : Nat × Nat :=
  (charOffset chunks ((max 1 ch.chunkStart).toNat - 1),
   charOffset chunks ((max 1 ch.chunkStart).toNat - 1) +
     (joinNl2 (jsSliceList chunks ((max 1 ch.chunkStart).toNat - 1)
       (min (chunks.length : Int) ch.chunkEnd))).length)

/-! ## Control flow of `RLMReader.read` (rlm-reader.ts, lines 695–912) -/

/-- Default text of `RLM_MESSAGES.EMPTY_DOCUMENT`. -/
def EMPTY_DOCUMENT : List Char := "文档内容为空或太短，无法处理".toList

/-- The `warning` string attached on a recursion-limit exit. -/
def RECURSION_WARNING : List Char := "达到递归限制，结果可能不完整".toList

/-- Model of `RLM_MESSAGES.PROCESS_ERROR(msg)`. -/
def PROCESS_ERROR (msg : List Char) : List Char := "阅读过程出错: ".toList ++ msg

/-- Outcome of the orchestration loop (`agent.invoke`), abstracting the
external reasoning capability: normal completion with the final output
buffer, a recursion-limit error with the buffer accumulated so far, or any
other error. -/
inductive AgentOutcome where
  | finished (output : List Char)
  | recursionLimit (output : List Char)
  | failed (msg : List Char)

/-- The observable result of `read` (content and optional metadata warning;
chapter aggregation is orthogonal to the failure discipline and elided). -/
structure RLMOutputM where
  content : List Char
  warning : Option (List Char)
deriving DecidableEq

/-- Whether `read` returned a value or threw, plus whether the orchestration
(tool loop) was ever created and invoked. -/
inductive ReadResult where
  | returned (out : RLMOutputM) (orchestrationStarted : Bool)
  | threw (msg : List Char)
deriving DecidableEq

/-- Model of `config.chunkSize || DEFAULT_CONFIG.chunkSize` — a zero (falsy) size
falls back to `2000`, so the chunker always runs with a positive size. -/
def rlmChunkSize (cfg : Nat) : Nat := if cfg = 0 then 2000 else cfg

/-- Control flow of `RLMReader.read`: chunk the document; an empty chunk list
returns the typed empty-document result before any tools or agent exist;
otherwise every agent outcome is converted into a normal return (the
recursion-limit branch adds the warning, any other error becomes a
`PROCESS_ERROR` result).  The `getD []` is unreachable since
`rlmChunkSize cfg ≥ 1`. -/
def read (content : List Char) (cfgChunkSize : Nat) (agent : AgentOutcome) : ReadResult :=
  if ((splitIntoParagraphs content (rlmChunkSize cfgChunkSize)).getD []).isEmpty then
    .returned ⟨EMPTY_DOCUMENT, none⟩ false
  else
    match agent with
    | .finished out => .returned ⟨out, none⟩ true
    | .recursionLimit out => .returned ⟨out, some RECURSION_WARNING⟩ true
    | .failed msg => .returned ⟨PROCESS_ERROR msg, none⟩ true

/-- Key order on store entries (used to reason about the id-sorted merge). -/
def keyLe (p q : Nat × SegOut) : Prop := p.1 ≤ q.1

/-- Strict key order on store entries. -/
def keyLt (p q : Nat × SegOut) : Prop := p.1 < q.1

instance : DecidableRel keyLe := fun p q => inferInstanceAs (Decidable (p.1 ≤ q.1))

instance : DecidableRel keyLt := fun p q => inferInstanceAs (Decidable (p.1 < q.1))

instance : IsTotal (Nat × SegOut) keyLe := ⟨fun a b => Nat.le_total a.1 b.1⟩

instance : IsTrans (Nat × SegOut) keyLe := ⟨fun _ _ _ h1 h2 => Nat.le_trans h1 h2⟩

instance : IsAntisymm (Nat × SegOut) keyLt :=
  ⟨fun _ _ h1 h2 => absurd (Nat.lt_trans h1 h2) (Nat.lt_irrefl _)⟩

/-- A completion list sorted by segment id (the spec's "ascending segment-id
order"). -/
def sortById (c : List (Nat × SegOut)) : List (Nat × SegOut) := c.insertionSort keyLe

/-- Concrete input for the C7 counterexample: a 20-chunk chapter followed by
a 2-chunk chapter and 29 further 10-chunk chapters (31 in total, so the
second consolidation pass runs); all titles are distinct, so the first pass
merges nothing. -/
def wideNarrowFragments : List ChapterSeg :=
  ⟨1, 20, ['T', '1'], ['a']⟩ :: ⟨21, 22, ['T', '2'], ['b']⟩ ::
    (List.range 29).map
      (fun (i : Nat) => ⟨23 + 10 * (i : Int), 32 + 10 * (i : Int), ['U', Char.ofNat (65 + i)], []⟩)

/-! ## Theorems -/

theorem nonWs_append (a b : List Char) : nonWs (a ++ b) = nonWs a ++ nonWs b :=
  List.filter_append ..

theorem nonWs_allWs {l : List Char} (h : ∀ c ∈ l, isWs c) : nonWs l = [] := by
  simp only [nonWs, List.filter_eq_nil_iff]
  intro c hc
  simp [h c hc]

theorem nonWs_reverse (l : List Char) : nonWs l.reverse = (nonWs l).reverse :=
  List.filter_reverse ..

theorem nonWs_dropWhile (l : List Char) :
    nonWs (l.dropWhile isWs) = nonWs l := by
  conv_rhs => rw [← List.takeWhile_append_dropWhile isWs l]
  rw [nonWs_append, nonWs_allWs (fun c hc => List.mem_takeWhile_imp hc), List.nil_append]

theorem nonWs_trim (l : List Char) : nonWs (trim l) = nonWs l := by
  unfold trim
  rw [nonWs_reverse, nonWs_dropWhile, nonWs_reverse, List.reverse_reverse,
    nonWs_dropWhile]

theorem trim_length_le (l : List Char) : (trim l).length ≤ l.length := by
  unfold trim
  calc ((l.dropWhile isWs).reverse.dropWhile isWs).reverse.length
      = ((l.dropWhile isWs).reverse.dropWhile isWs).length := List.length_reverse ..
    _ ≤ (l.dropWhile isWs).reverse.length := (List.dropWhile_sublist _).length_le
    _ = (l.dropWhile isWs).length := List.length_reverse ..
    _ ≤ l.length := (List.dropWhile_sublist _).length_le

theorem trim_eq_nil_allWs {l : List Char} (h : trim l = []) : ∀ c ∈ l, isWs c := by
  unfold trim at h
  rw [List.reverse_eq_nil_iff] at h
  have h2 : ∀ c ∈ (l.dropWhile isWs).reverse, isWs c := by
    intro c hc
    exact List.dropWhile_eq_nil_iff.mp h c hc
  intro c hc
  rw [← List.takeWhile_append_dropWhile isWs l] at hc
  rcases List.mem_append.mp hc with h3 | h3
  · exact List.mem_takeWhile_imp h3
  · exact h2 c (List.mem_reverse.mpr h3)

theorem lastOcc_lt_length {c : Char} :
    ∀ {l : List Char} {i : Nat}, lastOcc c l = some i → i < l.length := by
  intro l
  induction l with
  | nil => intro i h; simp [lastOcc] at h
  | cons x xs ih =>
    intro i h
    unfold lastOcc at h
    rcases h2 : lastOcc c xs with _ | j
    · rw [h2] at h
      by_cases hx : x = c
      · simp only [hx, if_true] at h
        obtain rfl : (0 : Nat) = i := Option.some.inj h
        simp
      · simp [hx] at h
    · rw [h2] at h
      simp only [] at h
      obtain rfl : j + 1 = i := Option.some.inj h
      have := ih h2
      simp
      omega

theorem lastIdxLe_le {c : Char} {l : List Char} {pos i : Nat}
    (h : lastIdxLe c l pos = some i) : i ≤ pos := by
  have := lastOcc_lt_length h
  have : i < (l.take (pos + 1)).length := this
  rw [List.length_take] at this
  omega

theorem computeSplitIndex_spec (remaining : List Char) (maxChars : Nat) :
    computeSplitIndex remaining maxChars = maxChars ∨
      ∃ i, computeSplitIndex remaining maxChars = i + 1 ∧ i ≤ maxChars := by
  rcases h1 : lastIdxLe '。' remaining maxChars with _ | i
  · rcases h2 : lastIdxLe '.' remaining maxChars with _ | j
    · left; simp [computeSplitIndex, h1, h2]
    · simp only [computeSplitIndex, h1, h2]
      split_ifs
      · left; rfl
      · right; exact ⟨j, rfl, lastIdxLe_le h2⟩
  · by_cases hlt : 2 * i < maxChars
    · rcases h2 : lastIdxLe '.' remaining maxChars with _ | j
      · left; simp [computeSplitIndex, h1, h2, hlt]
      · simp only [computeSplitIndex, h1, h2, if_pos hlt]
        split_ifs
        · left; rfl
        · right; exact ⟨j, rfl, lastIdxLe_le h2⟩
    · simp only [computeSplitIndex, h1, if_neg hlt]
      right; exact ⟨i, rfl, lastIdxLe_le h1⟩

theorem computeSplitIndex_pos {remaining : List Char} {maxChars : Nat}
    (hM : 1 ≤ maxChars) : 1 ≤ computeSplitIndex remaining maxChars := by
  rcases computeSplitIndex_spec remaining maxChars with h | ⟨i, h, _⟩ <;> omega

theorem computeSplitIndex_le {remaining : List Char} {maxChars : Nat} :
    computeSplitIndex remaining maxChars ≤ maxChars + 1 := by
  rcases computeSplitIndex_spec remaining maxChars with h | ⟨i, h, hi⟩ <;> omega

/-- Every piece produced by `splitLongText`'s loop has length at most
`maxChars + 1`: an in-loop piece ends at the chosen split index, which is at
most `maxChars + 1` (`computeSplitIndex_le`), and the final piece has length
at most `maxChars` by the loop exit condition. -/
theorem splitLongTextF_le {maxChars : Nat} :
    ∀ {fuel : Nat} {remaining : List Char} {ps : List (List Char)},
      splitLongTextF maxChars fuel remaining = some ps →
      ∀ p ∈ ps, p.length ≤ maxChars + 1 := by
  intro fuel
  induction fuel with
  | zero => intro remaining ps h; simp [splitLongTextF] at h
  | succ fuel ih =>
    intro remaining ps h
    unfold splitLongTextF at h
    split_ifs at h with hlong hemp
    · rcases h2 : splitLongTextF maxChars fuel (trim (remaining.drop (computeSplitIndex remaining maxChars))) with _ | rest
      · rw [h2] at h; exact absurd h (by simp)
      · rw [h2] at h
        obtain rfl := Option.some.inj h
        intro p hp
        rcases List.mem_cons.mp hp with rfl | hp2
        · have h3 := trim_length_le (remaining.take (computeSplitIndex remaining maxChars))
          rw [List.length_take] at h3
          have h4 := @computeSplitIndex_le remaining maxChars
          omega
        · exact ih h2 p hp2
    · obtain rfl := Option.some.inj h
      intro p hp; simp at hp
    · obtain rfl := Option.some.inj h
      intro p hp
      rcases List.mem_singleton.mp hp with rfl
      omega

/-- The pieces produced by `splitLongText`'s loop carry exactly the
non-whitespace characters of the input, in order. -/
theorem splitLongTextF_nonWs {maxChars : Nat} :
    ∀ {fuel : Nat} {remaining : List Char} {ps : List (List Char)},
      splitLongTextF maxChars fuel remaining = some ps →
      nonWs ps.flatten = nonWs remaining := by
  intro fuel
  induction fuel with
  | zero => intro remaining ps h; simp [splitLongTextF] at h
  | succ fuel ih =>
    intro remaining ps h
    unfold splitLongTextF at h
    split_ifs at h with hlong hemp
    · rcases h2 : splitLongTextF maxChars fuel (trim (remaining.drop (computeSplitIndex remaining maxChars))) with _ | rest
      · rw [h2] at h; exact absurd h (by simp)
      · rw [h2] at h
        obtain rfl := Option.some.inj h
        have hrec := ih h2
        rw [List.flatten_cons, nonWs_append, nonWs_trim, hrec, nonWs_trim,
          ← nonWs_append, List.take_append_drop]
    · obtain rfl := Option.some.inj h
      rw [List.isEmpty_iff.mp hemp]
      rfl
    · obtain rfl := Option.some.inj h
      simp [List.flatten]

/-- For `maxChars ≥ 1` the loop of `splitLongText` always terminates: each
iteration advances the split position by at least one character. -/
theorem splitLongTextF_isSome {maxChars : Nat} (hM : 1 ≤ maxChars) :
    ∀ {fuel : Nat} {remaining : List Char}, remaining.length < fuel →
      (splitLongTextF maxChars fuel remaining).isSome := by
  intro fuel
  induction fuel with
  | zero => intro remaining h; omega
  | succ fuel ih =>
    intro remaining hfuel
    unfold splitLongTextF
    split_ifs with hlong hemp
    · have hpos : 1 ≤ computeSplitIndex remaining maxChars := computeSplitIndex_pos hM
      have hlt : (trim (remaining.drop (computeSplitIndex remaining maxChars))).length < fuel := by
        have h1 := trim_length_le (remaining.drop (computeSplitIndex remaining maxChars))
        rw [List.length_drop] at h1
        omega
      have := ih hlt
      rcases h2 : splitLongTextF maxChars fuel (trim (remaining.drop (computeSplitIndex remaining maxChars))) with _ | rest
      · rw [h2] at this; simp at this
      · simp [h2]
    · simp
    · simp

theorem mem_take_of_takeWhile {p : Char → Bool} :
    ∀ (l : List Char) (k : Nat), k ≤ (l.takeWhile p).length →
      ∀ c ∈ l.take k, p c := by
  intro l
  induction l with
  | nil => intro k _ c hc; simp at hc
  | cons x xs ih =>
    intro k hk c hc
    by_cases hx : p x
    · rcases k with _ | k
      · simp at hc
      · rw [List.takeWhile_cons_of_pos hx] at hk
        simp only [List.length_cons, Nat.add_le_add_iff_right] at hk
        rw [List.take_succ_cons] at hc
        rcases List.mem_cons.mp hc with rfl | hc2
        · exact hx
        · exact ih k hk c hc2
    · rw [List.takeWhile_cons_of_neg hx] at hk
      simp at hk
      subst hk
      simp at hc

theorem takeBlankSep_spec {cs sep rest : List Char}
    (h : takeBlankSep cs = some (sep, rest)) :
    cs = sep ++ rest ∧ (∀ c ∈ sep, isWs c) ∧ sep ≠ [] := by
  unfold takeBlankSep at h
  rcases h2 : lastOcc '\n' (cs.takeWhile isWs) with _ | i
  · rw [h2] at h; simp at h
  · rw [h2] at h
    obtain ⟨rfl, rfl⟩ : cs.take (i + 1) = sep ∧ cs.drop (i + 1) = rest := by
      have := Option.some.inj h
      exact ⟨congrArg Prod.fst this, congrArg Prod.snd this⟩
    have hi : i < (cs.takeWhile isWs).length := lastOcc_lt_length h2
    refine ⟨(List.take_append_drop ..).symm, fun c hc => mem_take_of_takeWhile cs (i + 1) (by omega) c hc, ?_⟩
    have hlen : (cs.take (i + 1)).length = min (i + 1) cs.length := List.length_take ..
    have hcs : i < cs.length := lt_of_lt_of_le hi ((List.takeWhile_sublist _).length_le)
    intro hnil
    rw [hnil] at hlen
    simp at hlen
    omega

/-- The blank-line split only discards whitespace (the separators): the pieces
carry exactly the non-whitespace characters of the input, in order.  This
holds for every fuel value. -/
theorem splitBlankF_nonWs :
    ∀ (fuel : Nat) (acc cs : List Char),
      nonWs (splitBlankF fuel acc cs).flatten = nonWs acc.reverse ++ nonWs cs := by
  intro fuel
  induction fuel with
  | zero => intro acc cs; simp [splitBlankF, nonWs_append]
  | succ fuel ih =>
    intro acc cs
    rcases cs with _ | ⟨c, rest⟩
    · simp [splitBlankF, nonWs]
    · unfold splitBlankF
      by_cases hc : c = '\n'
      · rw [if_pos hc]
        rcases h2 : takeBlankSep rest with _ | ⟨sep, rest2⟩
        · rw [ih (c :: acc) rest]
          have : nonWs (c :: acc).reverse = nonWs acc.reverse ++ nonWs [c] := by
            rw [List.reverse_cons, nonWs_append]
          rw [this]
          have : nonWs (c :: rest) = nonWs [c] ++ nonWs rest := by
            have := nonWs_append [c] rest
            simpa using this
          rw [this, List.append_assoc]
        · obtain ⟨hsplit, hws, -⟩ := takeBlankSep_spec h2
          rw [List.flatten_cons, nonWs_append, ih [] rest2]
          have hcws : nonWs [c] = [] := by
            apply nonWs_allWs
            intro x hx
            rcases List.mem_singleton.mp hx with rfl
            simp [hc, isWs]
          have : nonWs (c :: rest) = nonWs [c] ++ nonWs rest := by
            have := nonWs_append [c] rest
            simpa using this
          rw [this, hcws, List.nil_append, hsplit, nonWs_append, nonWs_allWs hws,
            List.nil_append]
          simp [nonWs]
      · rw [if_neg hc, ih (c :: acc) rest]
        have h3 : nonWs (c :: acc).reverse = nonWs acc.reverse ++ nonWs [c] := by
          rw [List.reverse_cons, nonWs_append]
        have h4 : nonWs (c :: rest) = nonWs [c] ++ nonWs rest := by
          have := nonWs_append [c] rest
          simpa using this
        rw [h3, h4, List.append_assoc]

theorem splitBlank_nonWs (cs : List Char) :
    nonWs (splitBlank cs).flatten = nonWs cs := by
  unfold splitBlank
  rw [splitBlankF_nonWs]
  simp [nonWs]

theorem nonWs_cons_ws {c : Char} (l : List Char) (h : isWs c = true) :
    nonWs (c :: l) = nonWs l := by
  simp [nonWs, List.filter_cons, h]

theorem nonWs_nl2 (l : List Char) : nonWs ('\n' :: '\n' :: l) = nonWs l := by
  rw [nonWs_cons_ws _ (by decide), nonWs_cons_ws _ (by decide)]

theorem packLoop_nonWs {maxChars : Nat} :
    ∀ (rawList : List (List Char)) (current : List Char) (out : List (List Char)),
      packLoop maxChars rawList current = some out →
      nonWs out.flatten = nonWs current ++ nonWs rawList.flatten := by
  intro rawList
  induction rawList with
  | nil =>
    intro current out h
    unfold packLoop at h
    obtain rfl := Option.some.inj h
    by_cases hcur : current.isEmpty
    · rw [if_pos hcur, List.isEmpty_iff.mp hcur]
      rfl
    · rw [if_neg hcur]
      simp [nonWs]
  | cons raw rest ih =>
    intro current out h
    unfold packLoop at h
    have hflat : nonWs (raw :: rest).flatten = nonWs raw ++ nonWs rest.flatten := by
      rw [List.flatten_cons, nonWs_append]
    by_cases hfits : current.length + (trim raw).length + 2 ≤ maxChars
    · -- packed into the running buffer
      rw [if_pos hfits] at h
      by_cases hcur : current.isEmpty
      · rw [if_pos hcur] at h
        have hrec := ih _ _ h
        rw [hrec, hflat, List.isEmpty_iff.mp hcur, nonWs_trim]
        rfl
      · rw [if_neg hcur] at h
        have hrec := ih _ _ h
        rw [hrec, hflat, nonWs_append, nonWs_nl2, nonWs_trim, List.append_assoc]
    · rw [if_neg hfits] at h
      by_cases hlong : maxChars < (trim raw).length
      · -- over-long paragraph: splitLongText
        rw [if_pos hlong] at h
        rcases h1 : splitLongText (trim raw) maxChars with _ | chunks
        · rw [h1] at h; exact absurd h (by simp)
        · rw [h1] at h
          rcases h2 : packLoop maxChars rest [] with _ | out2
          · rw [h2] at h; exact absurd h (by simp)
          · rw [h2] at h
            obtain rfl := Option.some.inj h
            have hrec := ih _ _ h2
            have hchunks : nonWs chunks.flatten = nonWs raw := by
              rw [splitLongTextF_nonWs h1, nonWs_trim]
            rw [List.flatten_append, List.flatten_append, nonWs_append, nonWs_append,
              hchunks, hrec, hflat]
            by_cases hcur : current.isEmpty
            · rw [if_pos hcur, List.isEmpty_iff.mp hcur]
              simp [nonWs]
            · rw [if_neg hcur]
              simp [nonWs_append, nonWs]
      · -- flush, paragraph becomes the new buffer
        rw [if_neg hlong] at h
        rcases h2 : packLoop maxChars rest (trim raw) with _ | out2
        · rw [h2] at h; exact absurd h (by simp)
        · rw [h2] at h
          obtain rfl := Option.some.inj h
          have hrec := ih _ _ h2
          rw [List.flatten_append, nonWs_append, hrec, nonWs_trim, hflat]
          by_cases hcur : current.isEmpty
          · rw [if_pos hcur, List.isEmpty_iff.mp hcur]
            simp [nonWs]
          · rw [if_neg hcur]
            simp [nonWs_append, nonWs]

theorem packLoop_le {maxChars : Nat} :
    ∀ (rawList : List (List Char)) (current : List Char) (out : List (List Char)),
      current.length ≤ maxChars →
      packLoop maxChars rawList current = some out →
      ∀ p ∈ out, p.length ≤ maxChars + 1 := by
  intro rawList
  induction rawList with
  | nil =>
    intro current out hcur h p hp
    unfold packLoop at h
    obtain rfl := Option.some.inj h
    by_cases hc : current.isEmpty
    · rw [if_pos hc] at hp; simp at hp
    · rw [if_neg hc] at hp
      rcases List.mem_singleton.mp hp with rfl
      omega
  | cons raw rest ih =>
    intro current out hcur h p hp
    unfold packLoop at h
    by_cases hfits : current.length + (trim raw).length + 2 ≤ maxChars
    · rw [if_pos hfits] at h
      by_cases hc : current.isEmpty
      · rw [if_pos hc] at h
        refine ih _ _ ?_ h p hp
        rw [List.isEmpty_iff.mp hc] at hfits
        simp at hfits
        omega
      · rw [if_neg hc] at h
        refine ih _ _ ?_ h p hp
        simp only [List.length_append, List.length_cons]
        omega
    · rw [if_neg hfits] at h
      by_cases hlong : maxChars < (trim raw).length
      · rw [if_pos hlong] at h
        rcases h1 : splitLongText (trim raw) maxChars with _ | chunks
        · rw [h1] at h; exact absurd h (by simp)
        · rw [h1] at h
          rcases h2 : packLoop maxChars rest [] with _ | out2
          · rw [h2] at h; exact absurd h (by simp)
          · rw [h2] at h
            obtain rfl := Option.some.inj h
            rcases List.mem_append.mp hp with hp1 | hp2
            · rcases List.mem_append.mp hp1 with hp3 | hp4
              · by_cases hc : current.isEmpty
                · rw [if_pos hc] at hp3; simp at hp3
                · rw [if_neg hc] at hp3
                  rcases List.mem_singleton.mp hp3 with rfl
                  omega
              · exact splitLongTextF_le h1 p hp4
            · exact ih _ _ (by simp) h2 p hp2
      · rw [if_neg hlong] at h
        rcases h2 : packLoop maxChars rest (trim raw) with _ | out2
        · rw [h2] at h; exact absurd h (by simp)
        · rw [h2] at h
          obtain rfl := Option.some.inj h
          rcases List.mem_append.mp hp with hp1 | hp2
          · by_cases hc : current.isEmpty
            · rw [if_pos hc] at hp1; simp at hp1
            · rw [if_neg hc] at hp1
              rcases List.mem_singleton.mp hp1 with rfl
              omega
          · refine ih _ _ ?_ h2 p hp2
            omega

theorem packLoop_isSome {maxChars : Nat} (hM : 1 ≤ maxChars) :
    ∀ (rawList : List (List Char)) (current : List Char),
      (packLoop maxChars rawList current).isSome := by
  intro rawList
  induction rawList with
  | nil => intro current; simp [packLoop]
  | cons raw rest ih =>
    intro current
    unfold packLoop
    by_cases hfits : current.length + (trim raw).length + 2 ≤ maxChars
    · rw [if_pos hfits]
      exact ih _
    · rw [if_neg hfits]
      by_cases hlong : maxChars < (trim raw).length
      · rw [if_pos hlong]
        have h1 : (splitLongText (trim raw) maxChars).isSome :=
          splitLongTextF_isSome hM (by omega)
        rcases h2 : splitLongText (trim raw) maxChars with _ | chunks
        · rw [h2] at h1; simp at h1
        · have h3 := ih ([] : List Char)
          rcases h4 : packLoop maxChars rest [] with _ | out2
          · rw [h4] at h3; simp at h3
          · simp [h4]
      · rw [if_neg hlong]
        have h3 := ih (trim raw)
        rcases h4 : packLoop maxChars rest (trim raw) with _ | out2
        · rw [h4] at h3; simp at h3
        · simp [h4]

/-! ## C4 — chunk reconstruction -/

theorem nonWs_flatten_filterTrim (ps : List (List Char)) :
    nonWs ((ps.filter (fun p => 0 < (trim p).length)).flatten) = nonWs ps.flatten := by
  induction ps with
  | nil => rfl
  | cons p rest ih =>
    by_cases hp : 0 < (trim p).length
    · rw [List.filter_cons_of_pos (by simpa using hp), List.flatten_cons, List.flatten_cons,
        nonWs_append, nonWs_append, ih]
    · rw [List.filter_cons_of_neg (by simpa using hp), List.flatten_cons, nonWs_append, ih]
      have htrim : trim p = [] := by
        rcases Nat.eq_zero_of_not_pos hp with h
        exact List.eq_nil_of_length_eq_zero h
      rw [nonWs_allWs (trim_eq_nil_allWs htrim), List.nil_append]

theorem splitIntoParagraphs_isSome {content : List Char} {maxChars : Nat}
    (hM : 1 ≤ maxChars) : (splitIntoParagraphs content maxChars).isSome :=
  packLoop_isSome hM _ _

/-- C4 (amended): for every max size `M ≥ 1` the chunker terminates and its
chunks carry exactly the non-whitespace characters of the input, in order —
concatenation reproduces the source modulo whitespace at the boundaries; no
non-whitespace character is lost, duplicated or reordered.  (The function is
a Lean `def`, so purity/idempotence — identical results for identical
`(T, M)` — is definitional.)  For `M = 0` the source loop diverges and no
chunk list is ever produced. -/
theorem splitIntoParagraphs_reconstruction (content : List Char) (maxChars : Nat)
    (hM : 1 ≤ maxChars) :
    ∃ ps, splitIntoParagraphs content maxChars = some ps ∧
      nonWs ps.flatten = nonWs content := by
  have h1 := @splitIntoParagraphs_isSome content maxChars hM
  rcases h2 : splitIntoParagraphs content maxChars with _ | ps
  · rw [h2] at h1; simp at h1
  · refine ⟨ps, rfl, ?_⟩
    have h3 := packLoop_nonWs _ _ _ h2
    rw [h3]
    have h4 := nonWs_flatten_filterTrim (splitBlank content)
    calc nonWs ([] : List Char) ++
          nonWs ((splitBlank content).filter (fun p => 0 < (trim p).length)).flatten
        = nonWs ((splitBlank content).filter (fun p => 0 < (trim p).length)).flatten := by
          simp [nonWs]
      _ = nonWs (splitBlank content).flatten := h4
      _ = nonWs content := splitBlank_nonWs content

/-- Witness for C4 at a concrete input. -/
theorem splitIntoParagraphs_reconstruction_witness :
    splitIntoParagraphs ['a'] 1 = some [['a']] ∧
      nonWs (List.flatten [['a']]) = nonWs ['a'] := by
  obtain ⟨ps, h1, h2⟩ := splitIntoParagraphs_reconstruction ['a'] 1 (by norm_num)
  have hval : splitIntoParagraphs ['a'] 1 = some [['a']] := by decide
  have hps : ps = [['a']] := by
    have h3 : some [['a']] = some ps := hval ▸ h1
    exact (Option.some.inj h3).symm
  exact ⟨hval, hps ▸ h2⟩

/-- The `while` loop of `splitLongText` makes no progress at `maxChars = 0`
on text that does not begin with sentence punctuation: the split index is `0`
and the remaining text is unchanged, so no amount of fuel produces a result —
the source loop runs forever. -/
theorem splitLongTextF_zero_max_diverges :
    ∀ fuel : Nat, splitLongTextF 0 fuel ['a', 'b'] = none := by
  intro fuel
  induction fuel with
  | zero => rfl
  | succ fuel ih =>
    have h1 : computeSplitIndex ['a', 'b'] 0 = 0 := by decide
    have h2 : trim (List.drop (computeSplitIndex ['a', 'b'] 0) ['a', 'b']) = ['a', 'b'] := by
      decide
    unfold splitLongTextF
    rw [if_pos (by decide), h2, ih]

/-- Counterexample to C4 as stated: at max size `M = 0` (the claim
quantifies over *every* max size) the splitter never returns — the source
`while` loop in `splitLongText` pushes an empty chunk and leaves the
remaining text unchanged forever.  `none` is the model's value for the
diverging loop (`splitLongTextF_zero_max_diverges`). -/
theorem splitIntoParagraphs_zero_max_diverges :
    splitIntoParagraphs ['a', 'b'] 0 = none := by decide

/-! ## C5 — chunk size bound -/

/-- C5 (amended): every chunk is at most `M + 1` characters long.  The bound
`M` itself can be exceeded, by exactly one character, when the last sentence
punctuation lies exactly at index `M` (the split lands after it):
`splitIntoParagraphs_size_counterexample`. -/
theorem splitIntoParagraphs_size_bound {content : List Char} {maxChars : Nat}
    {ps : List (List Char)} (h : splitIntoParagraphs content maxChars = some ps) :
    ∀ p ∈ ps, p.length ≤ maxChars + 1 :=
  packLoop_le _ _ _ (by simp) h

/-- Witness for C5 at a concrete input (the boundary chunk of length
`M + 1`). -/
theorem splitIntoParagraphs_size_bound_witness :
    List.length ['a', 'a', 'a', 'a', '。'] ≤ 4 + 1 :=
  @splitIntoParagraphs_size_bound ['a', 'a', 'a', 'a', '。', 'b', 'b', 'b'] 4
    [['a', 'a', 'a', 'a', '。'], ['b', 'b', 'b']] (by decide)
    ['a', 'a', 'a', 'a', '。'] (by decide)

/-- Counterexample to C5 as stated: with `M = 4`, the single paragraph
`aaaa。bbb` is split at the `。` found at index `4 = M` (which passes the
`≥ M * 0.5` positional guard), so the produced chunk `aaaa。` has length
`5 > M`. -/
theorem splitIntoParagraphs_size_counterexample :
    splitIntoParagraphs ['a', 'a', 'a', 'a', '。', 'b', 'b', 'b'] 4 =
      some [['a', 'a', 'a', 'a', '。'], ['b', 'b', 'b']] ∧
    ¬ (∀ p ∈ [['a', 'a', 'a', 'a', '。'], ['b', 'b', 'b']],
        List.length p ≤ 4) := by
  constructor
  · decide
  · decide

/-! ## C10 — termination of the splitting loops -/

theorem segSentenceEnd_gt {content : List Char} {pos e : Nat} (h : pos < e) :
    pos < segSentenceEnd content pos e := by
  unfold segSentenceEnd
  rcases h3 : omax (omax (lastIdxLe '。' content e) (lastIdxLe '！' content e))
      (omax (lastIdxLe '？' content e) (lastIdxLe '"' content e)) with _ | i
  · exact h
  · show pos < if pos + 1500 < i then i + 1 else e
    split_ifs with h4
    · omega
    · exact h

theorem segEndPos_gt {content : List Char} {pos : Nat} (h : pos < content.length) :
    pos < segEndPos content pos := by
  have hmin : pos < min (pos + SEGMENT_SIZE) content.length := by
    rw [SEGMENT_SIZE]
    omega
  unfold segEndPos
  by_cases h0 : min (pos + SEGMENT_SIZE) content.length < content.length
  · rw [if_pos h0]
    rcases hpb : lastPairIdxLe '\n' '\n' content (min (pos + SEGMENT_SIZE) content.length)
        with _ | pb
    · exact segSentenceEnd_gt hmin
    · show pos < if pos + 1500 < pb then pb
        else segSentenceEnd content pos (min (pos + SEGMENT_SIZE) content.length)
      split_ifs with h4
      · omega
      · exact segSentenceEnd_gt hmin
  · rw [if_neg h0]
    exact hmin

theorem segLoopF_isSome {content : List Char} :
    ∀ {fuel pos id : Nat}, content.length - pos < fuel →
      (segLoopF fuel content pos id).isSome := by
  intro fuel
  induction fuel with
  | zero => intro pos id h; omega
  | succ fuel ih =>
    intro pos id hfuel
    unfold segLoopF
    by_cases hpos : pos < content.length
    · rw [if_pos hpos]
      have hgt := segEndPos_gt hpos
      have hrec : content.length - segEndPos content pos < fuel := by omega
      have h1 := @ih (segEndPos content pos) (id + 1) hrec
      rcases h2 : segLoopF fuel content (segEndPos content pos) (id + 1) with _ | rest
      · rw [h2] at h1; simp at h1
      · simp [h2]
    · rw [if_neg hpos]
      simp

theorem splitChapterIntoSegments_eq (content : List Char) :
    segLoopF (content.length + 1) content 0 1 = some (splitChapterIntoSegments content) := by
  have h1 : (segLoopF (content.length + 1) content 0 1).isSome := segLoopF_isSome (by omega)
  rcases h2 : segLoopF (content.length + 1) content 0 1 with _ | segs
  · rw [h2] at h1; simp at h1
  · rw [splitChapterIntoSegments, h2]
    rfl

theorem segLoopF_ids {content : List Char} :
    ∀ {fuel pos id : Nat} {segs : List Segment},
      segLoopF fuel content pos id = some segs →
      segs.map Segment.id = List.range' id segs.length := by
  intro fuel
  induction fuel with
  | zero => intro pos id segs h; simp [segLoopF] at h
  | succ fuel ih =>
    intro pos id segs h
    unfold segLoopF at h
    by_cases hpos : pos < content.length
    · rw [if_pos hpos] at h
      rcases h2 : segLoopF fuel content (segEndPos content pos) (id + 1) with _ | rest
      · rw [h2] at h; exact absurd h (by simp)
      · rw [h2] at h
        obtain rfl := Option.some.inj h
        have hrec := ih h2
        have hhead : (mkSegment content pos id).id = id := rfl
        simp only [List.map_cons, hhead, hrec, List.length_cons]
        rw [List.range'_succ]
    · rw [if_neg hpos] at h
      obtain rfl := Option.some.inj h
      simp

theorem dropWhile_isWs_idem :
    ∀ l : List Char, (l.dropWhile isWs).dropWhile isWs = l.dropWhile isWs := by
  intro l
  induction l with
  | nil => rfl
  | cons a t ih =>
    by_cases ha : isWs a
    · rw [List.dropWhile_cons_of_pos ha]
      exact ih
    · rw [List.dropWhile_cons_of_neg ha, List.dropWhile_cons_of_neg ha]

theorem dropWhile_isWs_head :
    ∀ {l : List Char} {a : Char} {t : List Char},
      l.dropWhile isWs = a :: t → isWs a = false := by
  intro l
  induction l with
  | nil => intro a t h; simp at h
  | cons x xs ih =>
    intro a t h
    by_cases hx : isWs x
    · rw [List.dropWhile_cons_of_pos hx] at h
      exact ih h
    · rw [List.dropWhile_cons_of_neg hx] at h
      obtain ⟨rfl, -⟩ := List.cons.inj h
      simpa using hx

theorem headI_of_prefix {p x : List Char} (h : p <+: x) (hne : p ≠ []) :
    p.headI = x.headI := by
  obtain ⟨r, rfl⟩ := h
  rcases p with _ | ⟨a, t⟩
  · exact absurd rfl hne
  · rfl

theorem trimR_prefix (x : List Char) : (x.reverse.dropWhile isWs).reverse <+: x := by
  have h2 : ((x.reverse.dropWhile isWs).reverse).reverse <:+ x.reverse := by
    rw [List.reverse_reverse]
    exact List.dropWhile_suffix isWs
  exact List.reverse_suffix.mp h2

theorem trim_headI_not_ws {l : List Char} (h : trim l ≠ []) :
    isWs (trim l).headI = false := by
  have hpre : trim l <+: l.dropWhile isWs := trimR_prefix (l.dropWhile isWs)
  have hhead : (trim l).headI = (l.dropWhile isWs).headI := headI_of_prefix hpre h
  rw [hhead]
  rcases hA : l.dropWhile isWs with _ | ⟨a, t⟩
  · exfalso
    apply h
    show ((l.dropWhile isWs).reverse.dropWhile isWs).reverse = []
    rw [hA]
    rfl
  · have := dropWhile_isWs_head hA
    simpa using this

theorem trim_idem (l : List Char) : trim (trim l) = trim l := by
  by_cases h : trim l = []
  · rw [h]
    rfl
  · have h1 : (trim l).dropWhile isWs = trim l := by
      rcases hB : trim l with _ | ⟨a, t⟩
      · rfl
      · have ha : isWs a = false := by
          have h2 := trim_headI_not_ws h
          rw [hB] at h2
          simpa using h2
        rw [List.dropWhile_cons_of_neg (by simp [ha])]
    show (((trim l).dropWhile isWs).reverse.dropWhile isWs).reverse = trim l
    rw [h1]
    have h3 : (trim l).reverse = (l.dropWhile isWs).reverse.dropWhile isWs := by
      show (((l.dropWhile isWs).reverse.dropWhile isWs).reverse).reverse = _
      rw [List.reverse_reverse]
    rw [h3, dropWhile_isWs_idem, ← h3, List.reverse_reverse]

theorem trim_take_ne_nil {rem : List Char} {k : Nat} (hfix : trim rem = rem)
    (hne : rem ≠ []) (hk : 1 ≤ k) : trim (rem.take k) ≠ [] := by
  intro h0
  have hall := trim_eq_nil_allWs h0
  rcases rem with _ | ⟨a, t⟩
  · exact hne rfl
  · have hmem : a ∈ (a :: t).take k := by
      rcases k with _ | k
      · omega
      · rw [List.take_succ_cons]
        exact List.mem_cons_self ..
    have haws : isWs a := hall a hmem
    have hhd : isWs (trim (a :: t)).headI = false := trim_headI_not_ws (by rw [hfix]; simp)
    rw [hfix] at hhd
    simp at hhd
    rw [haws] at hhd
    exact absurd hhd (by decide)

/-- With `maxChars ≥ 1` the loop of `splitLongText` never pushes an empty
chunk: the remaining text is trim-normalised, so its head is not whitespace
and every split keeps at least that character. -/
theorem splitLongTextF_ne_nil {maxChars : Nat} (hM : 1 ≤ maxChars) :
    ∀ {fuel : Nat} {rem : List Char} {ps : List (List Char)}, trim rem = rem →
      splitLongTextF maxChars fuel rem = some ps → ∀ p ∈ ps, p ≠ [] := by
  intro fuel
  induction fuel with
  | zero => intro rem ps _ h; simp [splitLongTextF] at h
  | succ fuel ih =>
    intro rem ps hfix h
    unfold splitLongTextF at h
    split_ifs at h with hlong hemp
    · rcases h2 : splitLongTextF maxChars fuel
          (trim (rem.drop (computeSplitIndex rem maxChars))) with _ | rest
      · rw [h2] at h
        exact absurd h (by simp)
      · rw [h2] at h
        obtain rfl := Option.some.inj h
        intro p hp
        rcases List.mem_cons.mp hp with rfl | hp2
        · exact trim_take_ne_nil hfix (by intro h0; rw [h0] at hlong; simp at hlong)
            (computeSplitIndex_pos hM)
        · exact ih (trim_idem _) h2 p hp2
    · obtain rfl := Option.some.inj h
      intro p hp
      simp at hp
    · obtain rfl := Option.some.inj h
      intro p hp
      rcases List.mem_singleton.mp hp with rfl
      exact fun h0 => hemp (by rw [h0]; rfl)

theorem packLoop_ne_nil {maxChars : Nat} (hM : 1 ≤ maxChars) :
    ∀ (rawList : List (List Char)) (current : List Char) (out : List (List Char)),
      packLoop maxChars rawList current = some out →
      ∀ p ∈ out, p ≠ [] := by
  intro rawList
  induction rawList with
  | nil =>
    intro current out h p hp
    unfold packLoop at h
    obtain rfl := Option.some.inj h
    by_cases hc : current.isEmpty
    · rw [if_pos hc] at hp
      simp at hp
    · rw [if_neg hc] at hp
      rcases List.mem_singleton.mp hp with rfl
      exact fun h0 => hc (by rw [h0]; rfl)
  | cons raw rest ih =>
    intro current out h p hp
    unfold packLoop at h
    by_cases hfits : current.length + (trim raw).length + 2 ≤ maxChars
    · rw [if_pos hfits] at h
      by_cases hc : current.isEmpty
      · rw [if_pos hc] at h
        exact ih _ _ h p hp
      · rw [if_neg hc] at h
        exact ih _ _ h p hp
    · rw [if_neg hfits] at h
      by_cases hlong : maxChars < (trim raw).length
      · rw [if_pos hlong] at h
        rcases h1 : splitLongText (trim raw) maxChars with _ | chunks
        · rw [h1] at h
          exact absurd h (by simp)
        · rw [h1] at h
          rcases h2 : packLoop maxChars rest [] with _ | out2
          · rw [h2] at h
            exact absurd h (by simp)
          · rw [h2] at h
            obtain rfl := Option.some.inj h
            rcases List.mem_append.mp hp with hp1 | hp2
            · rcases List.mem_append.mp hp1 with hp3 | hp4
              · by_cases hc : current.isEmpty
                · rw [if_pos hc] at hp3
                  simp at hp3
                · rw [if_neg hc] at hp3
                  rcases List.mem_singleton.mp hp3 with rfl
                  exact fun h0 => hc (by rw [h0]; rfl)
              · exact splitLongTextF_ne_nil hM (trim_idem raw) h1 p hp4
            · exact ih _ _ h2 p hp2
      · rw [if_neg hlong] at h
        rcases h2 : packLoop maxChars rest (trim raw) with _ | out2
        · rw [h2] at h
          exact absurd h (by simp)
        · rw [h2] at h
          obtain rfl := Option.some.inj h
          rcases List.mem_append.mp hp with hp1 | hp2
          · by_cases hc : current.isEmpty
            · rw [if_pos hc] at hp1
              simp at hp1
            · rw [if_neg hc] at hp1
              rcases List.mem_singleton.mp hp1 with rfl
              exact fun h0 => hc (by rw [h0]; rfl)
          · exact ih _ _ h2 p hp2

theorem segLoopF_span {content : List Char} :
    ∀ {fuel pos id : Nat} {segs : List Segment},
      segLoopF fuel content pos id = some segs →
      ∀ s ∈ segs, s.charStart < s.charEnd := by
  intro fuel
  induction fuel with
  | zero => intro pos id segs h; simp [segLoopF] at h
  | succ fuel ih =>
    intro pos id segs h
    unfold segLoopF at h
    by_cases hpos : pos < content.length
    · rw [if_pos hpos] at h
      rcases h2 : segLoopF fuel content (segEndPos content pos) (id + 1) with _ | rest
      · rw [h2] at h
        exact absurd h (by simp)
      · rw [h2] at h
        obtain rfl := Option.some.inj h
        intro s hs
        rcases List.mem_cons.mp hs with rfl | hs2
        · show pos < segEndPos content pos
          exact segEndPos_gt hpos
        · exact ih h2 s hs2
    · rw [if_neg hpos] at h
      obtain rfl := Option.some.inj h
      intro s hs
      simp at hs

/-- C10: both splitting loops terminate and produce non-degenerate pieces.
(1) For every positive max size (in particular the configured 2000) the
paragraph chunker returns; (2) the chosen split position in `splitLongText`
is always ≥ 1, so the remaining text strictly shrinks; (3) the segmentation
loop of `splitChapterIntoSegments` (configured segment size 2500) returns
within `length + 1` iterations because (4) the chosen segment end strictly
advances past the current start; (5) no produced chunk is empty and (6)
every produced segment covers a nonempty character range. -/
theorem splitter_termination :
    (∀ (content : List Char) (maxChars : Nat), 1 ≤ maxChars →
      (splitIntoParagraphs content maxChars).isSome) ∧
    (∀ (remaining : List Char) (maxChars : Nat), 1 ≤ maxChars →
      1 ≤ computeSplitIndex remaining maxChars) ∧
    (∀ content : List Char, (segLoopF (content.length + 1) content 0 1).isSome) ∧
    (∀ (content : List Char) (pos : Nat), pos < content.length →
      pos < segEndPos content pos) ∧
    (∀ (content : List Char) (maxChars : Nat) (ps : List (List Char)), 1 ≤ maxChars →
      splitIntoParagraphs content maxChars = some ps → ∀ p ∈ ps, p ≠ []) ∧
    (∀ (content : List Char), ∀ s ∈ splitChapterIntoSegments content,
      s.charStart < s.charEnd) := by
  refine ⟨?_, ?_, ?_, ?_, ?_, ?_⟩
  · intro content maxChars hM
    exact splitIntoParagraphs_isSome hM
  · intro remaining maxChars hM
    exact computeSplitIndex_pos hM
  · intro content
    exact segLoopF_isSome (by omega)
  · intro content pos h
    exact segEndPos_gt h
  · intro content maxChars ps hM h
    exact packLoop_ne_nil hM _ _ _ h
  · intro content s hs
    exact segLoopF_span (splitChapterIntoSegments_eq content) s hs

/-- Witness for C10 at concrete inputs (the configured sizes 2000 and 2500). -/
theorem splitter_termination_witness :
    (splitIntoParagraphs ['x'] 2000).isSome ∧
    1 ≤ computeSplitIndex ['x'] 2000 ∧
    (segLoopF 2 ['x'] 0 1).isSome ∧
    0 < segEndPos ['x'] 0 ∧
    (['x'] : List Char) ≠ [] ∧
    Segment.charStart ⟨1, 0, 1, ['x'], ['x']⟩ < Segment.charEnd ⟨1, 0, 1, ['x'], ['x']⟩ :=
  ⟨splitter_termination.1 ['x'] 2000 (by norm_num),
   splitter_termination.2.1 ['x'] 2000 (by norm_num),
   by simpa using splitter_termination.2.2.1 ['x'],
   splitter_termination.2.2.2.1 ['x'] 0 (by decide),
   splitter_termination.2.2.2.2.1 ['x'] 2000 [['x']] (by norm_num) (by decide) ['x'] (by decide),
   splitter_termination.2.2.2.2.2 ['x'] ⟨1, 0, 1, ['x'], ['x']⟩ (by decide)⟩

/-! ## C2 — gap-fill completeness -/

theorem storeContains_iff {st : Store} {j : Nat} :
    storeContains st j = true ↔ ∃ p ∈ st, p.1 = j := by
  simp [storeContains, List.any_eq_true]

theorem storeContains_storeSet_iff (st : Store) (k : Nat) (v : SegOut) (j : Nat) :
    storeContains (storeSet st k v) j = true ↔ (storeContains st j = true ∨ j = k) := by
  unfold storeSet
  by_cases hk : st.any (fun p => p.1 = k)
  · rw [if_pos hk]
    rw [storeContains_iff, storeContains_iff]
    constructor
    · rintro ⟨p, hp, hpj⟩
      obtain ⟨q, hq, rfl⟩ := List.mem_map.mp hp
      by_cases hqk : q.1 = k
      · left
        refine ⟨q, hq, ?_⟩
        rw [if_pos hqk] at hpj
        omega
      · left
        refine ⟨q, hq, ?_⟩
        rwa [if_neg hqk] at hpj
    · rintro (⟨p, hp, hpj⟩ | rfl)
      · refine ⟨if p.1 = k then (k, v) else p, List.mem_map.mpr ⟨p, hp, rfl⟩, ?_⟩
        by_cases hpk : p.1 = k
        · rw [if_pos hpk]
          omega
        · rw [if_neg hpk]
          exact hpj
      · rw [List.any_eq_true] at hk
        obtain ⟨q, hq, hqk⟩ := hk
        simp only [decide_eq_true_eq] at hqk
        exact ⟨(j, v), List.mem_map.mpr ⟨q, hq, by rw [if_pos hqk]⟩, rfl⟩
  · rw [if_neg hk]
    rw [storeContains_iff, storeContains_iff]
    constructor
    · rintro ⟨p, hp, hpj⟩
      rcases List.mem_append.mp hp with hp1 | hp2
      · exact Or.inl ⟨p, hp1, hpj⟩
      · rcases List.mem_singleton.mp hp2 with rfl
        exact Or.inr hpj.symm
    · rintro (⟨p, hp, hpj⟩ | rfl)
      · exact ⟨p, List.mem_append.mpr (Or.inl hp), hpj⟩
      · exact ⟨(j, v), List.mem_append.mpr (Or.inr (by simp)), rfl⟩

theorem gapFoldl_contains (writer : Nat → Option (List Char)) :
    ∀ (l : List Segment) (acc : Finset Nat × Store) (j : Nat),
      (storeContains acc.2 j = true ∨ ∃ seg ∈ l, seg.id = j ∧ (writer seg.id).isSome) →
      storeContains (l.foldl (gapFillStep writer) acc).2 j = true := by
  intro l
  induction l with
  | nil =>
    intro acc j h
    rcases h with h1 | ⟨seg, hseg, _⟩
    · simpa using h1
    · simp at hseg
  | cons seg rest ih =>
    intro acc j h
    rw [List.foldl_cons]
    apply ih
    rcases h with h1 | ⟨s, hs, hid, hw⟩
    · left
      unfold gapFillStep
      rcases writer seg.id with _ | c
      · exact h1
      · exact (storeContains_storeSet_iff ..).mpr (Or.inl h1)
    · rcases List.mem_cons.mp hs with rfl | hs2
      · left
        unfold gapFillStep
        rcases h2 : writer s.id with _ | c
        · rw [h2] at hw; simp at hw
        · exact (storeContains_storeSet_iff ..).mpr (Or.inr hid.symm)
      · right
        exact ⟨s, hs2, hid, hw⟩

/-- C2: after the forced gap-fill pass, the segment output store contains an
entry for *every* segment id `1..segmentCount`, whatever the dispatch loop
did.  The loop's effect is abstracted as an arbitrary processed set and
store, coupled by the invariant that every processed id was stored (which
`handleSpawnWriter` maintains: it stores and marks in the same call); the
hypothesis on `writer` says the gap-fill rewrites themselves succeed (a
generation failure is caught by the source and leaves that segment out). -/
theorem gapFill_completeness (chapterContent : List Char) (processed : Finset Nat)
    (store : Store) (writer : Nat → Option (List Char))
    (hinv : ∀ id ∈ processed, storeContains store id = true)
    (hw : ∀ seg ∈ (splitChapterIntoSegments chapterContent).filter
        (fun s => decide (s.id ∉ processed)), (writer seg.id).isSome) :
    ∀ id : Nat, 1 ≤ id → id ≤ (splitChapterIntoSegments chapterContent).length →
      storeContains
        (gapFill (splitChapterIntoSegments chapterContent) writer processed store).2 id
        = true := by
  intro id h1 h2
  have hids : (splitChapterIntoSegments chapterContent).map Segment.id =
      List.range' 1 (splitChapterIntoSegments chapterContent).length :=
    segLoopF_ids (splitChapterIntoSegments_eq chapterContent)
  have hmem : id ∈ (splitChapterIntoSegments chapterContent).map Segment.id := by
    rw [hids, List.mem_range'_1]
    omega
  obtain ⟨seg, hseg, rfl⟩ := List.mem_map.mp hmem
  unfold gapFill
  apply gapFoldl_contains
  by_cases hp : seg.id ∈ processed
  · left
    exact hinv _ hp
  · right
    have hfil : seg ∈ (splitChapterIntoSegments chapterContent).filter
        (fun s => decide (s.id ∉ processed)) := by
      rw [List.mem_filter]
      exact ⟨hseg, by simp [hp]⟩
    exact ⟨seg, hfil, rfl, hw seg hfil⟩

/-- Witness for C2 at a concrete input: a two-character chapter (one
segment), nothing processed by the loop, a writer that always succeeds. -/
theorem gapFill_completeness_witness :
    storeContains
      (gapFill (splitChapterIntoSegments ['h', 'i'])
        (fun _ => some ['o', 'k']) ∅ []).2 1 = true :=
  gapFill_completeness ['h', 'i'] ∅ [] (fun _ => some ['o', 'k'])
    (by simp) (by decide) 1 (by norm_num) (by decide)

/-! ## C3 — reassembly is order-independent -/

theorem buildStore_go (c : List (Nat × SegOut)) :
    ∀ acc : Store, (∀ p ∈ c, storeContains acc p.1 = false) →
      (c.map Prod.fst).Nodup →
      c.foldl (fun st p => storeSet st p.1 p.2) acc = acc ++ c := by
  induction c with
  | nil => intro acc _ _; simp
  | cons p rest ih =>
    intro acc hdisj hnd
    rw [List.foldl_cons]
    have hset : storeSet acc p.1 p.2 = acc ++ [p] := by
      unfold storeSet
      have : acc.any (fun q => q.1 = p.1) = false := hdisj p (List.mem_cons_self p rest)
      rw [if_neg (by simp [this])]
    rw [hset]
    have hnd2 : (rest.map Prod.fst).Nodup := (List.nodup_cons.mp (by simpa using hnd)).2
    have hnotin : p.1 ∉ rest.map Prod.fst := (List.nodup_cons.mp (by simpa using hnd)).1
    have hdisj2 : ∀ q ∈ rest, storeContains (acc ++ [p]) q.1 = false := by
      intro q hq
      have h1 : storeContains acc q.1 = false := hdisj q (List.mem_cons_of_mem _ hq)
      have h2 : q.1 ≠ p.1 := by
        intro heq
        exact hnotin (heq ▸ List.mem_map_of_mem Prod.fst hq)
      rw [← Bool.not_eq_true]
      rw [storeContains_iff]
      rintro ⟨r, hr, hrq⟩
      rcases List.mem_append.mp hr with hr1 | hr2
      · rw [← Bool.not_eq_true, storeContains_iff] at h1
        exact h1 ⟨r, hr1, hrq⟩
      · rcases List.mem_singleton.mp hr2 with rfl
        exact h2 hrq.symm
    rw [ih (acc ++ [p]) hdisj2 hnd2, List.append_assoc]
    rfl

/-- With distinct ids, replaying the completions through `Map.set` yields the
completions themselves (insertion order, no overwrites). -/
theorem buildStore_eq {c : List (Nat × SegOut)} (h : (c.map Prod.fst).Nodup) :
    buildStore c = c := by
  unfold buildStore
  rw [buildStore_go c [] (by intro p _; rfl) h]
  rfl

theorem lookup_eq_of_mem_nodup :
    ∀ {c : Store} {p : Nat × SegOut}, (c.map Prod.fst).Nodup → p ∈ c →
      List.lookup p.1 c = some p.2 := by
  intro c
  induction c with
  | nil => intro p _ hp; simp at hp
  | cons q rest ih =>
    intro p hnd hp
    obtain ⟨k, v⟩ := q
    rcases List.mem_cons.mp hp with rfl | hp2
    · simp [List.lookup]
    · have hnotin : k ∉ rest.map Prod.fst := (List.nodup_cons.mp (by simpa using hnd)).1
      have hne : k ≠ p.1 := by
        intro heq
        exact hnotin (heq ▸ List.mem_map_of_mem Prod.fst hp2)
      have hbeq : (p.1 == k) = false := by
        simp [Ne.symm hne]
      simp only [List.lookup, hbeq]
      exact ih (List.nodup_cons.mp (by simpa using hnd)).2 hp2

theorem sortById_keys (c : List (Nat × SegOut)) :
    (sortById c).map Prod.fst = (c.map Prod.fst).insertionSort (· ≤ ·) := by
  have hperm : ((sortById c).map Prod.fst).Perm ((c.map Prod.fst).insertionSort (· ≤ ·)) :=
    ((List.perm_insertionSort keyLe c).map Prod.fst).trans
      (List.perm_insertionSort (· ≤ ·) (c.map Prod.fst)).symm
  have hs1 : List.Sorted (· ≤ ·) ((sortById c).map Prod.fst) :=
    List.pairwise_map.mpr (List.sorted_insertionSort keyLe c)
  have hs2 : List.Sorted (· ≤ ·) ((c.map Prod.fst).insertionSort (· ≤ ·)) :=
    List.sorted_insertionSort (· ≤ ·) (c.map Prod.fst)
  exact List.eq_of_perm_of_sorted hperm hs1 hs2

/-- With distinct ids the sorted-keys-then-lookup merge equals mapping the
key-sorted completion list through the block builder. -/
theorem assemble_eq_canonical {c : Store} (h : (c.map Prod.fst).Nodup) :
    assembleOutput c = joinNl2 ((sortById c).map (fun p => segBlock p.2)) := by
  unfold assembleOutput
  rw [← sortById_keys, List.map_map]
  congr 1
  apply List.map_congr_left
  intro p hp
  have hmem : p ∈ c := (List.perm_insertionSort keyLe c).mem_iff.mp hp
  show segBlock ((List.lookup p.1 c).getD ⟨[], []⟩) = segBlock p.2
  rw [lookup_eq_of_mem_nodup h hmem]
  rfl

theorem sortById_sorted_strict {c : List (Nat × SegOut)}
    (hnd : (c.map Prod.fst).Nodup) : List.Sorted keyLt (sortById c) := by
  have hs : List.Sorted keyLe (sortById c) := List.sorted_insertionSort keyLe c
  have hperm : (sortById c).Perm c := List.perm_insertionSort keyLe c
  have hnd2 : ((sortById c).map Prod.fst).Nodup :=
    ((hperm.map Prod.fst).nodup_iff).mpr hnd
  have hne : List.Pairwise (fun p q : Nat × SegOut => p.1 ≠ q.1) (sortById c) :=
    List.pairwise_map.mp hnd2
  exact (hs.and hne).imp (fun h => Nat.lt_of_le_of_ne h.1 h.2)

/-- Two permutations of the same completions (distinct ids) sort to the same
key-ordered list. -/
theorem sortById_perm_eq {c₁ c₂ : List (Nat × SegOut)} (hperm : c₁.Perm c₂)
    (hnd : (c₁.map Prod.fst).Nodup) : sortById c₁ = sortById c₂ := by
  have hnd2 : (c₂.map Prod.fst).Nodup := ((hperm.map Prod.fst).nodup_iff).mp hnd
  have hp : (sortById c₁).Perm (sortById c₂) :=
    (List.perm_insertionSort keyLe c₁).trans
      (hperm.trans (List.perm_insertionSort keyLe c₂).symm)
  exact List.eq_of_perm_of_sorted hp (sortById_sorted_strict hnd) (sortById_sorted_strict hnd2)

/-- C3: the assembled chapter text is a pure function of the id-keyed store —
any permutation of the completion/storage order yields the same final text,
and that text is the concatenation, in ascending segment-id order, of the
`### title\n\ncontent` blocks joined by blank lines. -/
theorem assembled_perm_invariant (c₁ c₂ : List (Nat × SegOut))
    (hperm : c₁.Perm c₂) (hnd : (c₁.map Prod.fst).Nodup) :
    assembleOutput (buildStore c₁) = assembleOutput (buildStore c₂) ∧
    assembleOutput (buildStore c₁) =
      joinNl2 ((sortById c₁).map (fun p => segBlock p.2)) := by
  have hnd2 : (c₂.map Prod.fst).Nodup := ((hperm.map Prod.fst).nodup_iff).mp hnd
  rw [buildStore_eq hnd, buildStore_eq hnd2]
  refine ⟨?_, assemble_eq_canonical hnd⟩
  rw [assemble_eq_canonical hnd, assemble_eq_canonical hnd2, sortById_perm_eq hperm hnd]

/-- Witness for C3: two segments completed in the two possible orders give
the same assembled text, equal to the ascending-id concatenation. -/
theorem assembled_perm_invariant_witness :
    assembleOutput (buildStore [(2, ⟨['B'], ['y']⟩), (1, ⟨['A'], ['x']⟩)]) =
      assembleOutput (buildStore [(1, ⟨['A'], ['x']⟩), (2, ⟨['B'], ['y']⟩)]) ∧
    assembleOutput (buildStore [(2, ⟨['B'], ['y']⟩), (1, ⟨['A'], ['x']⟩)]) =
      joinNl2 ((sortById [(2, ⟨['B'], ['y']⟩), (1, ⟨['A'], ['x']⟩)]).map
        (fun p => segBlock p.2)) :=
  assembled_perm_invariant _ _ (List.Perm.swap _ _ _) (by decide)

/-! ## C1 — the coverage gate -/

/-- C1: behaviour of `done()`.  With `N` total chunks and required fraction
`f`: when `N > 10` and the covered count is below `⌈N·f⌉` (equivalently, the
source's `readCount < N * f`), the call rejects with corrective guidance
enumerating at most 5 unread contiguous ranges; once the covered count
reaches `⌈N·f⌉` (or `N ≤ 10`), it accepts exactly when the output buffer
holds at least 100 characters (the emptiness test is subsumed), and rejects
demanding output otherwise. -/
theorem doneCheck_coverage_gate (N : Nat) (readSet : Finset Nat) (output : List Char)
    (f : ℚ) :
    (10 < N → (readSet.card : ℤ) < ⌈(N : ℚ) * f⌉ →
      doneCheck N readSet output f =
        DoneResult.rejectCoverage ((mergeRanges (unreadChunks N readSet)).take 5)
          (mergeRanges (unreadChunks N readSet)).length ∧
      ((mergeRanges (unreadChunks N readSet)).take 5).length ≤ 5) ∧
    ((N ≤ 10 ∨ ⌈(N : ℚ) * f⌉ ≤ (readSet.card : ℤ)) →
      (doneCheck N readSet output f = DoneResult.accept ↔ 100 ≤ output.length)) := by
  have hceil : ((readSet.card : ℚ) < (N : ℚ) * f) ↔ ((readSet.card : ℤ) < ⌈(N : ℚ) * f⌉) := by
    rw [Int.lt_ceil]
    push_cast
    exact Iff.rfl
  constructor
  · intro hN hcov
    have hcond : 10 < N ∧ (readSet.card : ℚ) < (N : ℚ) * f := ⟨hN, hceil.mpr hcov⟩
    refine ⟨?_, ?_⟩
    · unfold doneCheck
      rw [if_pos hcond]
    · rw [List.length_take]
      omega
  · intro hok
    have hcond : ¬ (10 < N ∧ (readSet.card : ℚ) < (N : ℚ) * f) := by
      rintro ⟨h1, h2⟩
      rw [hceil] at h2
      rcases hok with h | h
      · omega
      · omega
    unfold doneCheck
    rw [if_neg hcond]
    by_cases hlen : output.length < 100
    · rw [if_pos hlen]
      constructor
      · intro h
        exact absurd h (by simp)
      · intro h
        omega
    · rw [if_neg hlen]
      constructor
      · intro _
        omega
      · intro _
        rfl

/-- Witness for C1 at the claim's own example, `N = 100`, `f = 0.8`: with 79
covered chunks `done()` rejects (here the single unread range `80–100` is
displayed), with 80 covered chunks and a 150-character output it accepts. -/
theorem doneCheck_coverage_gate_witness :
    doneCheck 100 (Finset.Icc 1 79) (List.replicate 150 'x') (4 / 5) =
      DoneResult.rejectCoverage [(80, 100)] 1 ∧
    doneCheck 100 (Finset.Icc 1 80) (List.replicate 150 'x') (4 / 5) =
      DoneResult.accept := by
  constructor
  · have h := (doneCheck_coverage_gate 100 (Finset.Icc 1 79) (List.replicate 150 'x')
        (4 / 5)).1 (by norm_num)
      (by rw [Nat.card_Icc]; norm_num)
    have hr : mergeRanges (unreadChunks 100 (Finset.Icc 1 79)) = [(80, 100)] := by decide
    rw [h.1, hr]
    rfl
  · exact ((doneCheck_coverage_gate 100 (Finset.Icc 1 80) (List.replicate 150 'x')
      (4 / 5)).2 (Or.inr (by rw [Nat.card_Icc]; norm_num))).mpr (by simp)

/-! ## C6 — chapter fragment merge -/

/-- C6: (a) the claim's example — `{A, 1–5, s1}` and `{A, 6–9, s2}` merge
into `{A, 1–9}` with the summaries concatenated (deduplicated); (b) after
sorting, a fragment is merged into its predecessor *exactly* when the titles
are identical and the ranges touch or overlap
(`next.chunkStart ≤ prev.chunkEnd + 1`); fragments with different titles are
never merged, however their ranges relate. -/
theorem fragmentMerge_spec :
    (getCollectedChapters [⟨1, 5, ['A'], ['s', '1']⟩, ⟨6, 9, ['A'], ['s', '2']⟩] =
      [⟨1, 9, ['A'], ['s', '1', '；', 's', '2']⟩]) ∧
    (∀ f g : ChapterSeg, f.chunkStart ≤ g.chunkStart →
      mergeFragments [f, g] =
        if f.title = g.title ∧ g.chunkStart ≤ f.chunkEnd + 1 then
          [{ f with
            chunkEnd := max f.chunkEnd g.chunkEnd
            summary :=
              if g.summary ≠ [] ∧ containsSub g.summary f.summary = false then
                (if f.summary ≠ [] then f.summary ++ ('；' :: g.summary) else g.summary)
              else f.summary }]
        else [f, g]) := by
  constructor
  · decide
  · intro f g _
    show mergeStep (mergeStep [] f) g = _
    have h1 : mergeStep [] f = [f] := rfl
    rw [h1]
    unfold mergeStep
    have h2 : List.getLast? [f] = some f := rfl
    rw [h2]
    show (if f.title = g.title ∧ g.chunkStart ≤ f.chunkEnd + 1 then
        List.dropLast [f] ++ [{ f with
          chunkEnd := max f.chunkEnd g.chunkEnd
          summary :=
            if g.summary ≠ [] ∧ containsSub g.summary f.summary = false then
              (if f.summary ≠ [] then f.summary ++ ('；' :: g.summary) else g.summary)
            else f.summary }]
      else [f] ++ [g]) = _
    split_ifs <;> simp

/-- Witness for C6's conditional part at a concrete pair of touching
fragments with different titles (they do not merge). -/
theorem fragmentMerge_spec_witness :
    mergeFragments [⟨1, 5, ['A'], []⟩, (⟨6, 9, ['B'], []⟩ : ChapterSeg)] =
      [⟨1, 5, ['A'], []⟩, ⟨6, 9, ['B'], []⟩] := by
  have h := fragmentMerge_spec.2 ⟨1, 5, ['A'], []⟩ ⟨6, 9, ['B'], []⟩ (by norm_num)
  rw [h]
  rw [if_neg (by intro hc; exact absurd hc.1 (by decide))]

/-! ## C7 — the second consolidation pass -/

/-- C7 (amended): the second pass runs exactly when more than 30 merged
chapters remain; within it, the running chapter absorbs its successor when
the running chapter spans fewer than 10 chunks *or the successor spans fewer
than 5*; a chapter spanning at least 10 chunks whose successor spans at
least 5 is emitted unmerged (in particular a list in which every chapter
spans at least 10 chunks passes through unchanged). -/
theorem consolidateChapters_spec :
    (∀ collected : List ChapterSeg,
      (mergeFragments (collected.insertionSort
          (fun a b => a.chunkStart ≤ b.chunkStart))).length ≤ 30 →
      getCollectedChapters collected =
        mergeFragments (collected.insertionSort (fun a b => a.chunkStart ≤ b.chunkStart))) ∧
    (∀ collected : List ChapterSeg,
      30 < (mergeFragments (collected.insertionSort
          (fun a b => a.chunkStart ≤ b.chunkStart))).length →
      getCollectedChapters collected =
        consolidateChapters (mergeFragments (collected.insertionSort
          (fun a b => a.chunkStart ≤ b.chunkStart)))) ∧
    (∀ (current ch : ChapterSeg) (rest : List ChapterSeg),
      10 ≤ chapterSpan current → 5 ≤ chapterSpan ch →
      consolidateGo current (ch :: rest) = current :: consolidateGo ch rest) ∧
    (∀ l : List ChapterSeg, (∀ c ∈ l, 10 ≤ chapterSpan c) → consolidateChapters l = l) := by
  have hgo : ∀ (rest : List ChapterSeg) (current : ChapterSeg),
      10 ≤ chapterSpan current → (∀ c ∈ rest, 10 ≤ chapterSpan c) →
      consolidateGo current rest = current :: rest := by
    intro rest
    induction rest with
    | nil => intro current _ _; rfl
    | cons ch rest2 ih =>
      intro current hcur hall
      unfold consolidateGo
      rw [if_neg]
      · rw [ih ch (hall ch (List.mem_cons_self ch rest2))
          (fun c hc => hall c (List.mem_cons_of_mem _ hc))]
      · push_neg
        exact ⟨by omega, by have := hall ch (List.mem_cons_self ch rest2); omega⟩
  refine ⟨?_, ?_, ?_, ?_⟩
  · intro collected hle
    unfold getCollectedChapters
    by_cases hemp : collected.isEmpty
    · rw [if_pos hemp]
      rw [List.isEmpty_iff.mp hemp]
      rfl
    · rw [if_neg hemp, if_neg (by omega)]
  · intro collected hgt
    unfold getCollectedChapters
    by_cases hemp : collected.isEmpty
    · rw [List.isEmpty_iff.mp hemp] at hgt
      simp [mergeFragments] at hgt
    · rw [if_neg hemp, if_pos hgt]
  · intro current ch rest hcur hch
    rw [consolidateGo, if_neg (by push_neg; exact ⟨by omega, by omega⟩)]
  · intro l hall
    rcases l with _ | ⟨ch, rest⟩
    · rfl
    · show consolidateGo ch rest = ch :: rest
      exact hgo rest ch (hall ch (List.mem_cons_self ch rest))
        (fun c hc => hall c (List.mem_cons_of_mem _ hc))

/-- Witness for C7 at concrete inputs: a small list skips the second pass, a
wide chapter followed by a wide-enough chapter is emitted unmerged, and an
all-wide list passes the second pass unchanged. -/
theorem consolidateChapters_spec_witness :
    getCollectedChapters [⟨1, 2, ['A'], []⟩] =
      mergeFragments ([(⟨1, 2, ['A'], []⟩ : ChapterSeg)].insertionSort
        (fun a b => a.chunkStart ≤ b.chunkStart)) ∧
    consolidateGo ⟨1, 10, ['A'], []⟩ [⟨11, 15, ['B'], []⟩] =
      ⟨1, 10, ['A'], []⟩ :: consolidateGo ⟨11, 15, ['B'], []⟩ [] ∧
    consolidateChapters [⟨1, 10, ['A'], []⟩, ⟨11, 25, ['B'], []⟩] =
      [⟨1, 10, ['A'], []⟩, ⟨11, 25, ['B'], []⟩] :=
  ⟨consolidateChapters_spec.1 [⟨1, 2, ['A'], []⟩] (by decide),
   consolidateChapters_spec.2.2.1 ⟨1, 10, ['A'], []⟩ ⟨11, 15, ['B'], []⟩ []
     (by decide) (by decide),
   consolidateChapters_spec.2.2.2 [⟨1, 10, ['A'], []⟩, ⟨11, 25, ['B'], []⟩] (by decide)⟩

/-- Counterexample to C7 as stated: in `wideNarrowFragments` the second pass
runs (31 > 30 chapters) and the first chapter spans 20 ≥ 10 chunks, yet it is
*not* emitted unmerged — it absorbs its 2-chunk successor because the code
also merges whenever the *successor* spans fewer than 5 chunks.  The output
starts with the absorbed chapter `{T1, 1–22}` and the original `{T1, 1–20}`
is gone. -/
theorem consolidateChapters_counterexample :
    (getCollectedChapters wideNarrowFragments).head? =
      some ⟨1, 22, ['T', '1'], ['a', '；', 'b']⟩ ∧
    (⟨1, 20, ['T', '1'], ['a']⟩ : ChapterSeg) ∉ getCollectedChapters wideNarrowFragments := by
  constructor
  · decide
  · decide

/-! ## C8 — chapter character ranges -/

theorem sum_map_len2 (l : List (List Char)) :
    (l.map (fun c => c.length + 2)).sum = (l.map List.length).sum + 2 * l.length := by
  induction l with
  | nil => rfl
  | cons a t ih =>
    simp only [List.map_cons, List.sum_cons, List.length_cons, ih]
    ring

theorem joinNl2_length :
    ∀ ps : List (List Char), ps ≠ [] →
      (joinNl2 ps).length = (ps.map List.length).sum + 2 * (ps.length - 1) := by
  intro ps
  induction ps with
  | nil => intro h; exact absurd rfl h
  | cons b bs ih =>
    intro _
    rcases bs with _ | ⟨b2, bs2⟩
    · simp [joinNl2]
    · have heq : joinNl2 (b :: b2 :: bs2) = b ++ ('\n' :: '\n' :: joinNl2 (b2 :: bs2)) := rfl
      rw [heq]
      have hrec := ih (by simp)
      simp only [List.length_append, List.length_cons, hrec, List.map_cons, List.sum_cons]
      omega

theorem charOffset_add (chunks : List (List Char)) {a e : Nat} (h : a ≤ e) :
    charOffset chunks e =
      charOffset chunks a + (((chunks.drop a).take (e - a)).map (fun c => c.length + 2)).sum := by
  unfold charOffset
  conv_lhs => rw [show e = a + (e - a) by omega, List.take_add]
  rw [List.map_append, List.sum_append]

theorem charOffset_join (chunks : List (List Char)) {a e : Nat}
    (h1 : a < e) (h2 : e ≤ chunks.length) :
    charOffset chunks e =
      charOffset chunks a + (joinNl2 ((chunks.drop a).take (e - a))).length + 2 := by
  have hlen : ((chunks.drop a).take (e - a)).length = e - a := by
    rw [List.length_take, List.length_drop]
    omega
  have hne : (chunks.drop a).take (e - a) ≠ [] := by
    intro h
    rw [h] at hlen
    simp at hlen
    omega
  rw [charOffset_add chunks (le_of_lt h1), sum_map_len2, joinNl2_length _ hne, hlen]
  omega

/-- Two chunk-contiguous, in-bounds raw chapters map to character ranges with
`next.charStart = prev.charEnd + 2` (the two characters being the `\n\n`
joiner that separates the last chunk of one chapter from the first chunk of
the next). -/
theorem gSpan_step {chunks : List (List Char)} {ch ch2 : RawChapter}
    (hb1 : 1 ≤ ch.chunkStart ∧ ch.chunkStart ≤ ch.chunkEnd ∧
      ch.chunkEnd ≤ (chunks.length : Int))
    (hb2 : 1 ≤ ch2.chunkStart ∧ ch2.chunkStart ≤ ch2.chunkEnd ∧
      ch2.chunkEnd ≤ (chunks.length : Int))
    (hstep : ch2.chunkStart = ch.chunkEnd + 1) :
    (gSpan chunks ch2).1 = (gSpan chunks ch).2 + 2 := by
  obtain ⟨h11, h12, h13⟩ := hb1
  have hslice : jsSliceEnd chunks.length (min (chunks.length : Int) ch.chunkEnd) =
      ch.chunkEnd.toNat := by
    rw [min_eq_right h13]
    unfold jsSliceEnd
    rw [if_neg (by omega)]
    have : ch.chunkEnd.toNat ≤ chunks.length := by omega
    exact min_eq_left this
  unfold gSpan jsSliceList
  rw [max_eq_right h11, max_eq_right hb2.1, hslice]
  have h2start : ch2.chunkStart.toNat - 1 = ch.chunkEnd.toNat := by omega
  rw [h2start]
  exact charOffset_join chunks (by omega) (by omega)

theorem chain'_imp_mem {α : Type} {R Q : α → α → Prop} {P : α → Prop} :
    ∀ {l : List α}, List.Chain' R l → (∀ a ∈ l, P a) →
      (∀ a b, P a → P b → R a b → Q a b) → List.Chain' Q l := by
  intro l
  induction l with
  | nil =>
    intro _ _ _
    exact List.chain'_nil
  | cons a t ih =>
    intro hch hall himp
    rcases t with _ | ⟨b, t2⟩
    · exact List.chain'_singleton a
    · rw [List.chain'_cons] at hch ⊢
      exact ⟨himp a b (hall a (by simp)) (hall b (by simp)) hch.1,
        ih hch.2 (fun x hx => hall x (List.mem_cons_of_mem _ hx)) himp⟩

theorem mapChaptersRaw_span (chunks : List (List Char)) (plan : List RawChapter) :
    (mapChaptersRaw chunks plan).map (fun c => (c.charStart, c.charEnd)) =
      plan.map (gSpan chunks) := by
  unfold mapChaptersRaw
  rw [List.map_map]
  have hfun : ((fun c : Chapter => (c.charStart, c.charEnd)) ∘ fun p : Nat × RawChapter =>
      mkChapterOf chunks p.1 p.2) = (gSpan chunks) ∘ Prod.snd := rfl
  rw [hfun, ← List.map_map, List.enum_map_snd]

/-- C8 (amended): for a nonempty, in-bounds, chunk-contiguous chapter plan
whose mapped contents all reach the 50-character minimum, the mapping keeps
every chapter, the first chapter (starting at chunk 1) has `charStart = 0`,
and each next chapter's `charStart` is the previous chapter's `charEnd`
*plus 2* — the ranges are disjoint and ascending but separated by the
two-character `\n\n` joiner, not an exact partition. -/
theorem chapterCharRanges_spec (chunks : List (List Char)) (plan : List RawChapter)
    (hb : ∀ ch ∈ plan, 1 ≤ ch.chunkStart ∧ ch.chunkStart ≤ ch.chunkEnd ∧
      ch.chunkEnd ≤ (chunks.length : Int))
    (hchain : List.Chain' (fun a b => b.chunkStart = a.chunkEnd + 1) plan)
    (hlong : ∀ c ∈ mapChaptersRaw chunks plan, 50 ≤ c.content.length) :
    mapChaptersOntoChunks chunks plan = mapChaptersRaw chunks plan ∧
    (mapChaptersOntoChunks chunks plan).length = plan.length ∧
    (plan.head?.map RawChapter.chunkStart = some 1 →
      (mapChaptersOntoChunks chunks plan).head?.map Chapter.charStart = some 0) ∧
    List.Chain' (fun a b => b.charStart = a.charEnd + 2)
      (mapChaptersOntoChunks chunks plan) := by
  have hfil : mapChaptersOntoChunks chunks plan = mapChaptersRaw chunks plan := by
    unfold mapChaptersOntoChunks
    apply List.filter_eq_self.mpr
    intro c hc
    simpa using hlong c hc
  refine ⟨hfil, ?_, ?_, ?_⟩
  · rw [hfil]
    unfold mapChaptersRaw
    simp
  · intro hhead
    rw [hfil]
    rcases plan with _ | ⟨ch0, rest⟩
    · simp at hhead
    · have hstart : ch0.chunkStart = 1 := by
        simp [List.head?] at hhead
        exact hhead
      have henum : (ch0 :: rest).enum = (0, ch0) :: rest.enumFrom 1 := by
        simp [List.enum]
      unfold mapChaptersRaw
      rw [henum, List.map_cons, List.head?_cons]
      show some (mkChapterOf chunks (0, ch0).1 (0, ch0).2).charStart = some 0
      have : (mkChapterOf chunks (0, ch0).1 (0, ch0).2).charStart = 0 := by
        show charOffset chunks ((max 1 ch0.chunkStart).toNat - 1) = 0
        rw [hstart]
        rfl
      rw [this]
  · rw [hfil]
    have hgoal : List.Chain' (fun p q : Nat × Nat => q.1 = p.2 + 2)
        ((mapChaptersRaw chunks plan).map (fun c => (c.charStart, c.charEnd))) := by
      rw [mapChaptersRaw_span, List.chain'_map]
      exact chain'_imp_mem hchain hb (fun a b hba hbb hr => gSpan_step hba hbb hr)
    rw [List.chain'_map] at hgoal
    exact hgoal

/-- Witness for C8 at a concrete two-chapter plan over two 60-character
chunks. -/
theorem chapterCharRanges_spec_witness :
    (mapChaptersOntoChunks [List.replicate 60 'a', List.replicate 60 'b']
        [⟨1, 1, ['A'], []⟩, ⟨2, 2, ['B'], []⟩]).length = 2 ∧
    List.Chain' (fun a b => b.charStart = a.charEnd + 2)
      (mapChaptersOntoChunks [List.replicate 60 'a', List.replicate 60 'b']
        [⟨1, 1, ['A'], []⟩, ⟨2, 2, ['B'], []⟩]) := by
  have h := chapterCharRanges_spec [List.replicate 60 'a', List.replicate 60 'b']
    [⟨1, 1, ['A'], []⟩, ⟨2, 2, ['B'], []⟩]
    (by decide)
    (by rw [List.chain'_cons]; exact ⟨by decide, List.chain'_singleton _⟩)
    (by decide)
  exact ⟨h.2.1, h.2.2.2⟩

/-- Counterexample to C8 as stated: with two contiguous single-chunk chapters
over two 60-character chunks, the second chapter's `charStart` is 62, not the
first chapter's `charEnd` 60 — the running offset adds 2 per chunk for the
`\n\n` joiner, so consecutive ranges never abut and the mapped ranges do not
partition the concatenated document. -/
theorem chapterCharRanges_counterexample :
    mapChaptersOntoChunks [List.replicate 60 'a', List.replicate 60 'b']
        [⟨1, 1, ['A'], []⟩, ⟨2, 2, ['B'], []⟩] =
      [⟨0, ['A'], [], List.replicate 60 'a', 0, 60⟩,
       ⟨1, ['B'], [], List.replicate 60 'b', 62, 122⟩] ∧
    ¬ List.Chain' (fun a b => b.charStart = a.charEnd)
      (mapChaptersOntoChunks [List.replicate 60 'a', List.replicate 60 'b']
        [⟨1, 1, ['A'], []⟩, ⟨2, 2, ['B'], []⟩]) := by
  have h1 : mapChaptersOntoChunks [List.replicate 60 'a', List.replicate 60 'b']
      [⟨1, 1, ['A'], []⟩, ⟨2, 2, ['B'], []⟩] =
      [⟨0, ['A'], [], List.replicate 60 'a', 0, 60⟩,
       ⟨1, ['B'], [], List.replicate 60 'b', 62, 122⟩] := by decide
  refine ⟨h1, ?_⟩
  rw [h1, List.chain'_cons]
  rintro ⟨h2, -⟩
  exact absurd h2 (by decide)

/-! ## C9 — failure discipline of `read` -/

/-- C9 (amended): `read` never throws — every agent outcome, including
coverage-driven loop continuation ending in the recursion limit and any
other agent error, is converted into a normal return.  A document that
yields zero chunks produces the typed `EMPTY_DOCUMENT` result immediately,
*returned* (not thrown), before any orchestration is created or invoked
(the `false` flag); a recursion-limit exit returns the partial output with
the "possibly incomplete" warning. -/
theorem read_failure_discipline :
    (∀ (content : List Char) (cfg : Nat) (agent : AgentOutcome),
      ∃ out orch, read content cfg agent = ReadResult.returned out orch) ∧
    (∀ (content : List Char) (cfg : Nat) (agent : AgentOutcome),
      ((splitIntoParagraphs content (rlmChunkSize cfg)).getD []).isEmpty = true →
      read content cfg agent = ReadResult.returned ⟨EMPTY_DOCUMENT, none⟩ false) ∧
    (∀ (content : List Char) (cfg : Nat) (out : List Char),
      ((splitIntoParagraphs content (rlmChunkSize cfg)).getD []).isEmpty = false →
      read content cfg (AgentOutcome.recursionLimit out) =
        ReadResult.returned ⟨out, some RECURSION_WARNING⟩ true) := by
  refine ⟨?_, ?_, ?_⟩
  · intro content cfg agent
    unfold read
    by_cases hemp : ((splitIntoParagraphs content (rlmChunkSize cfg)).getD []).isEmpty
    · rw [if_pos hemp]
      exact ⟨_, _, rfl⟩
    · rw [if_neg hemp]
      rcases agent with out | out | msg
      · exact ⟨_, _, rfl⟩
      · exact ⟨_, _, rfl⟩
      · exact ⟨_, _, rfl⟩
  · intro content cfg agent hemp
    unfold read
    rw [if_pos hemp]
  · intro content cfg out hemp
    unfold read
    rw [if_neg (by rw [hemp]; exact Bool.false_ne_true)]

/-- Witness for C9 at concrete inputs. -/
theorem read_failure_discipline_witness :
    read [] 0 (AgentOutcome.finished ['y']) =
      ReadResult.returned ⟨EMPTY_DOCUMENT, none⟩ false ∧
    read ['x'] 0 (AgentOutcome.recursionLimit ['y']) =
      ReadResult.returned ⟨['y'], some RECURSION_WARNING⟩ true :=
  ⟨read_failure_discipline.2.1 [] 0 (AgentOutcome.finished ['y']) (by decide),
   read_failure_discipline.2.2 ['x'] 0 ['y'] (by decide)⟩

/-- Counterexample to C9 as stated: an empty document does *not* make `read`
throw a fatal error — the source returns a normal `RLMOutput` whose content
is the `EMPTY_DOCUMENT` message (and never reaches the orchestration), so the
"immediate typed failure" is a returned value, not a thrown one. -/
theorem read_empty_counterexample :
    read [] 0 (AgentOutcome.finished ['x']) =
      ReadResult.returned ⟨EMPTY_DOCUMENT, none⟩ false := by
  decide

end Storytelling
